import Mathlib

/-!
Verification of the description parser of `soe_webhooks.py`.

Python strings are modelled as lists of characters (`Str`).  The Python
string operations used by the source (`split`, `replace`, `strip`,
`startswith`, `in`, and the tag-stripping regex `<[^<]+?>`) are embedded
as executable Lean functions with the exact CPython semantics:

* `s.split(sep)` (nonempty `sep`) scans left to right, cutting at each
  non-overlapping occurrence; `"".split(sep) = [""]`.
* `s.replace(old, new)` equals joining `s.split(old)` with `new`.
* `s.strip()` removes leading and trailing whitespace characters.
* the regex `<[^<]+?>` matches a `<`, then a shortest nonempty run of
  non-`<` characters, then `>`; `re.sub` removes every such match,
  scanning left to right.

`process_description` embeds the parsing portion of `process_webhooks`
(the branch on one already-cleaned description string), returning `none`
where the Python code would raise an `IndexError` on a missing split
component.  `normalizeDesc` embeds the cleaning pipeline
(`strip_html` followed by removal of the synonym marker and commas).
-/

namespace Soe

/-- Python strings, modelled as lists of characters. -/
abbrev Str := List Char

/-- The character list of a Lean string literal. -/
def str (s : String) : Str := s.data

/-- Python's `str.strip()` whitespace class: the 29 code points for
which CPython's `str.isspace()` returns true (tab through carriage
return, the information separators, space, next line, no-break space,
and the Unicode space separators). -/
def isSpc (c : Char) : Bool :=
  ([9, 10, 11, 12, 13, 28, 29, 30, 31, 32, 0x85, 0xa0, 0x1680,
    0x2000, 0x2001, 0x2002, 0x2003, 0x2004, 0x2005, 0x2006, 0x2007,
    0x2008, 0x2009, 0x200a, 0x2028, 0x2029, 0x202f, 0x205f,
    0x3000] : List Nat).contains c.toNat

/-- Drop trailing elements satisfying `p`. -/
def dropTrail (p : α → Bool) (l : List α) : List α :=
  (l.reverse.dropWhile p).reverse

/-- Python `str.strip()`. -/
def pyStrip (s : Str) : Str := dropTrail isSpc (s.dropWhile isSpc)

/-- Fuelled worker for Python `str.split`. -/
def pySplitF (p : Str) : Nat → Str → List Str
  | 0, s => [s]
  | _ + 1, [] => [[]]
  | n + 1, c :: rest =>
    if p ≠ [] ∧ p <+: (c :: rest) then
      [] :: pySplitF p n (rest.drop (p.length - 1))
    else
      match pySplitF p n rest with
      | [] => [[c]]
      | t :: ts => (c :: t) :: ts

/-- Python `s.split(p)` for a nonempty separator `p`. -/
def pySplit (p s : Str) : List Str := pySplitF p s.length s

/-- Python `s.replace(old, new)` (for nonempty `old`):
join the pieces of `s.split(old)` with `new`. -/
def pyReplace (old new s : Str) : Str := List.intercalate new (pySplit old s)

/-- Attempt of the regex `<[^<]+?>` just after an opening `<`:
given the remaining characters and whether at least one inner character
has been consumed, return the characters after the closing `>` of the
shortest match, or `none` if no match starts at this `<`. -/
def tagRest : Str → Bool → Option Str
  | [], _ => none
  | c :: rest, b =>
    if c = '<' then none
    else if c = '>' ∧ b then some rest
    else tagRest rest true

/-- Fuelled worker for `re.sub('<[^<]+?>', '', ·)`. -/
def stripTagsF : Nat → Str → Str
  | 0, s => s
  | _ + 1, [] => []
  | n + 1, c :: rest =>
    if c = '<' then
      match tagRest rest false with
      | some rest2 => stripTagsF n rest2
      | none => c :: stripTagsF n rest
    else c :: stripTagsF n rest

/-- `re.sub('<[^<]+?>', '', s)`: remove every tag span. -/
def stripTags (s : Str) : Str := stripTagsF s.length s

/-- The source's `strip_html`: remove tag spans, then `\n`, then `\r`,
then strip surrounding whitespace. -/
def strip_html (t : Str) : Str :=
  pyStrip (pyReplace (str "\r") [] (pyReplace (str "\n") [] (stripTags t)))

/-- The synonym-annotation marker removed by `process_webhooks`. -/
def synMark : Str := str "(added via synonyms) "

/-- The full description-cleaning pipeline of `process_webhooks`
(line 163–164): `strip_html(...)`, then remove the synonym marker,
then remove commas. -/
def normalizeDesc (t : Str) : Str :=
  pyReplace [','] [] (pyReplace synMark [] (strip_html t))

/-- The fixed activity-type vocabulary, in the source's order. -/
def activity_types : List Str :=
  [str "edited questions", str "updated answers", str "accepted answers",
   str "questions", str "answers", str "comments"]

/-- One iteration of the explicit-activities scan loop:
`if activity_type in description: activities.append(activity_type);
description = description.replace(activity_type, '').strip()`. -/
def scanStep (st : List Str × Str) (p : Str) : List Str × Str :=
  if p <:+: st.2 then (st.1 ++ [p], pyStrip (pyReplace p [] st.2)) else st

/-- `description.startswith('All post activity to')` uses no trailing
space in the source. -/
def allHead : Str := str "All post activity to"

/-- The separator of the all-activity split (with trailing space). -/
def allSep : Str := str "All post activity to "

/-- The `'Any '` separator. -/
def anySep : Str := str "Any "

/-- The `' to '` separator. -/
def toSep : Str := str " to "

/-- The `'posts to'` membership test string. -/
def postsTo : Str := str "posts to"

/-- The `' posts to '` separator. -/
def postsToSep : Str := str " posts to "

/-- The description parser of `process_webhooks` (lines 166–191),
acting on one cleaned description string.  The result is
`(tags, activities, channel)`; `none` models the `IndexError` raised
by an out-of-range `[1]` after a `split`. -/
def process_description (d : Str) : Option (List Str × List Str × Str) :=
  if allHead <+: d then
    ((pySplit allSep d)[1]?).map fun channel =>
      ([str "all"], activity_types, channel)
  else
    match (pySplit anySep d)[1]? with
    | none => none
    | some rest =>
      match (pySplit toSep rest)[1]? with
      | none => none
      | some channel =>
        if postsTo <:+: rest then
          some (pySplit [' '] ((pySplit postsToSep rest).getD 0 []),
                activity_types, channel)
        else
          some (if (activity_types.foldl scanStep
                      ([], (pySplit toSep rest).getD 0 [])).2.isEmpty
                then [str "all"]
                else pySplit [' ']
                  (activity_types.foldl scanStep
                    ([], (pySplit toSep rest).getD 0 [])).2,
                (activity_types.foldl scanStep
                  ([], (pySplit toSep rest).getD 0 [])).1, channel)

/-! ### Basic properties of `pySplit` -/

theorem pySplitF_fuel_eq (p : Str) :
    ∀ n m (s : Str), s.length ≤ n → s.length ≤ m →
      pySplitF p n s = pySplitF p m s := by
  intro n
  induction n with
  | zero =>
    intro m s hn _
    have hs : s = [] := List.length_eq_zero.mp (Nat.le_zero.mp hn)
    subst hs
    cases m <;> rfl
  | succ n ih =>
    intro m s hn hm
    cases s with
    | nil => cases m <;> rfl
    | cons c rest =>
      cases m with
      | zero => exact absurd hm (by simp)
      | succ m =>
        simp only [pySplitF]
        have hrn : rest.length ≤ n := by simpa using hn
        have hrm : rest.length ≤ m := by simpa using hm
        by_cases h : p ≠ [] ∧ p <+: (c :: rest)
        · simp only [if_pos h]
          have hdn : (rest.drop (p.length - 1)).length ≤ n :=
            le_trans (by simpa using List.length_drop_le _ _) hrn
          have hdm : (rest.drop (p.length - 1)).length ≤ m :=
            le_trans (by simpa using List.length_drop_le _ _) hrm
          rw [ih m _ hdn hdm]
        · simp only [if_neg h]
          rw [ih m rest hrn hrm]

theorem pySplit_cons (p : Str) (c : Char) (rest : Str) :
    pySplit p (c :: rest) =
      if p ≠ [] ∧ p <+: (c :: rest) then
        [] :: pySplit p (rest.drop (p.length - 1))
      else
        match pySplit p rest with
        | [] => [[c]]
        | t :: ts => (c :: t) :: ts := by
  show pySplitF p (rest.length + 1) (c :: rest) = _
  simp only [pySplitF]
  by_cases h : p ≠ [] ∧ p <+: (c :: rest)
  · simp only [if_pos h]
    rw [pySplitF_fuel_eq p rest.length (rest.drop (p.length - 1)).length _
      (by simpa using List.length_drop_le _ _) le_rfl]
    rfl
  · simp only [if_neg h]
    rfl

theorem pySplit_nil (p : Str) : pySplit p [] = [[]] := rfl

theorem pySplit_ne_nil (p s : Str) : pySplit p s ≠ [] := by
  induction s with
  | nil => simp [pySplit_nil]
  | cons c rest ih =>
    rw [pySplit_cons]
    by_cases h : p ≠ [] ∧ p <+: (c :: rest)
    · simp [if_pos h]
    · simp only [if_neg h]
      cases hres : pySplit p rest with
      | nil => simp
      | cons t ts => simp

/-- A list with no occurrence of `p` splits into a single piece. -/
theorem pySplit_no_occ {p s : Str} (h : ¬ p <:+: s) : pySplit p s = [s] := by
  induction s with
  | nil => exact pySplit_nil p
  | cons c rest ih =>
    rw [pySplit_cons]
    have hpre : ¬ (p ≠ [] ∧ p <+: (c :: rest)) := by
      rintro ⟨-, hp⟩
      exact h hp.isInfix
    rw [if_neg hpre]
    have hrest : ¬ p <:+: rest := fun hr => h (List.infix_cons hr)
    rw [ih hrest]

/-- If `p` occurs nowhere in `x ++ p` except at the very end (equivalently,
`p` is not an infix of `x ++ p.dropLast`), the split of `x ++ p ++ y`
cuts exactly there first. -/
theorem pySplit_append {p : Str} (hp : p ≠ []) :
    ∀ {x : Str} (y : Str), ¬ p <:+: (x ++ p.dropLast) →
      pySplit p (x ++ p ++ y) = x :: pySplit p y := by
  intro x
  induction x with
  | nil =>
    intro y _
    obtain ⟨c, p', rfl⟩ := List.exists_cons_of_ne_nil hp
    rw [List.nil_append]
    show pySplit (c :: p') (c :: (p' ++ y)) = _
    rw [pySplit_cons]
    have hpre : (c :: p') ≠ [] ∧ (c :: p') <+: (c :: (p' ++ y)) := by
      constructor
      · simp
      · exact ⟨y, by simp⟩
    rw [if_pos hpre]
    simp only [List.length_cons, Nat.add_sub_cancel]
    rw [List.drop_left' (by simp)]
  | cons c x' ih =>
    intro y hx
    have hcx : c :: x' ≠ [] := by simp
    rw [List.cons_append, List.cons_append, pySplit_cons]
    have hpre : ¬ ((p ≠ []) ∧ p <+: (c :: (x' ++ p ++ y))) := by
      rintro ⟨-, hpp⟩
      apply hx
      have hsplit : (c :: x') ++ p ++ y
          = ((c :: x') ++ p.dropLast) ++ ([p.getLast hp] ++ y) := by
        conv_lhs => rw [← List.dropLast_append_getLast hp]
        simp [List.append_assoc]
      have hlen : p.length ≤ ((c :: x') ++ p.dropLast).length := by
        have hpl : 1 ≤ p.length := List.length_pos.mpr hp
        simp only [List.length_append, List.length_cons, List.length_dropLast]
        omega
      have hpp' : p <+: (c :: x') ++ p ++ y := hpp
      rw [hsplit] at hpp'
      have : p <+: ((c :: x') ++ p.dropLast) := by
        rw [← List.append_assoc] at hpp'
        exact (List.isPrefix_append_of_length hlen).mp (by simpa using hpp')
      exact this.isInfix
    rw [if_neg hpre]
    have hx' : ¬ p <:+: (x' ++ p.dropLast) := by
      intro hocc
      exact hx (List.infix_cons hocc)
    rw [ih y hx']

/-- `pyReplace` with an absent pattern is the identity. -/
theorem pyReplace_no_occ {old new s : Str} (h : ¬ old <:+: s) :
    pyReplace old new s = s := by
  unfold pyReplace
  rw [pySplit_no_occ h]
  simp [List.intercalate]

theorem intercalate_cons_cons (n : Str) (a b : Str) (t : List Str) :
    List.intercalate n (a :: b :: t) = a ++ n ++ List.intercalate n (b :: t) := by
  simp [List.intercalate, List.intersperse]

theorem intercalate_single (n a : Str) : List.intercalate n [a] = a := by
  simp [List.intercalate]

/-! ### Basic properties of `pyStrip` and `stripTags` -/

theorem singleton_occ_iff_mem {c : Char} {s : Str} : [c] <:+: s ↔ c ∈ s := by
  constructor
  · intro h
    exact h.subset (by simp)
  · intro h
    obtain ⟨x, y, rfl⟩ := List.append_of_mem h
    exact ⟨x, y, by simp⟩

theorem dropWhile_idem (p : α → Bool) (l : List α) :
    (l.dropWhile p).dropWhile p = l.dropWhile p := by
  cases h : l.dropWhile p with
  | nil => rfl
  | cons a t =>
    have ha : p a = false := by
      have hh := List.head?_dropWhile_not p l
      rw [h] at hh
      simpa using hh
    rw [List.dropWhile_cons_of_neg (by simp [ha])]

theorem dropTrail_prefix_self (p : α → Bool) (l : List α) : dropTrail p l <+: l := by
  unfold dropTrail
  have h : l.reverse.dropWhile p <:+ l.reverse := List.dropWhile_suffix p
  obtain ⟨t, ht⟩ := h
  refine ⟨t.reverse, ?_⟩
  rw [← List.reverse_append, ht, List.reverse_reverse]

theorem pyStrip_infix_self (s : Str) : pyStrip s <:+: s := by
  unfold pyStrip
  have h1 : dropTrail isSpc (s.dropWhile isSpc) <+: s.dropWhile isSpc :=
    dropTrail_prefix_self _ _
  have h2 : s.dropWhile isSpc <:+ s := List.dropWhile_suffix _
  exact h1.isInfix.trans h2.isInfix

theorem mem_of_mem_pyStrip {c : Char} {s : Str} (h : c ∈ pyStrip s) : c ∈ s :=
  (pyStrip_infix_self s).subset h

theorem dropWhile_eq_self_of_pre {p : α → Bool} {l₁ l₂ : List α}
    (h : l₁ <+: l₂) (h2 : l₂.dropWhile p = l₂) : l₁.dropWhile p = l₁ := by
  cases l₁ with
  | nil => rfl
  | cons a t =>
    obtain ⟨w, rfl⟩ := h
    by_cases hpa : p a
    · rw [List.cons_append, List.dropWhile_cons_of_pos hpa] at h2
      have hlen := congrArg List.length h2
      rw [List.length_cons] at hlen
      have hle := (List.dropWhile_sublist (l := t ++ w) p).length_le
      omega
    · rw [List.dropWhile_cons_of_neg hpa]

theorem pyStrip_idem (s : Str) : pyStrip (pyStrip s) = pyStrip s := by
  have hU : (s.dropWhile isSpc).dropWhile isSpc = s.dropWhile isSpc :=
    dropWhile_idem _ _
  have hV1 : (pyStrip s).dropWhile isSpc = pyStrip s :=
    dropWhile_eq_self_of_pre (dropTrail_prefix_self _ _) hU
  have hV2 : dropTrail isSpc (pyStrip s) = pyStrip s := by
    show (List.dropWhile isSpc (pyStrip s).reverse).reverse = pyStrip s
    have hrev : (pyStrip s).reverse
        = List.dropWhile isSpc (s.dropWhile isSpc).reverse := by
      show (dropTrail isSpc (s.dropWhile isSpc)).reverse = _
      unfold dropTrail
      rw [List.reverse_reverse]
    rw [hrev, dropWhile_idem, ← hrev, List.reverse_reverse]
  show dropTrail isSpc ((pyStrip s).dropWhile isSpc) = pyStrip s
  rw [hV1, hV2]

theorem stripTags_cons_ne {c : Char} (rest : Str) (h : c ≠ '<') :
    stripTags (c :: rest) = c :: stripTags rest := by
  show stripTagsF (rest.length + 1) (c :: rest) = _
  simp only [stripTagsF, if_neg h]
  rfl

theorem stripTags_of_no_lt {s : Str} (h : '<' ∉ s) : stripTags s = s := by
  induction s with
  | nil => rfl
  | cons c rest ih =>
    have hc : c ≠ '<' := fun hc => h (hc ▸ List.mem_cons_self c rest)
    rw [stripTags_cons_ne rest hc, ih (fun hm => h (List.mem_cons_of_mem c hm))]

/-- On inputs containing no `<`, comma, CR, LF, and no occurrence of the
synonym marker, the cleaning pipeline is exactly `pyStrip`. -/
theorem normalizeDesc_eq_pyStrip {s : Str}
    (h1 : '<' ∉ s) (h2 : ',' ∉ s) (h3 : '\n' ∉ s) (h4 : '\r' ∉ s)
    (h5 : ¬ synMark <:+: s) : normalizeDesc s = pyStrip s := by
  unfold normalizeDesc strip_html
  rw [stripTags_of_no_lt h1]
  have e1 : pyReplace (str "\n") [] s = s :=
    pyReplace_no_occ (by
      rw [show str "\n" = ['\n'] from rfl, singleton_occ_iff_mem]
      exact h3)
  rw [e1]
  have e2 : pyReplace (str "\r") [] s = s :=
    pyReplace_no_occ (by
      rw [show str "\r" = ['\r'] from rfl, singleton_occ_iff_mem]
      exact h4)
  rw [e2]
  have e3 : pyReplace synMark [] (pyStrip s) = pyStrip s :=
    pyReplace_no_occ (fun hocc => h5 (hocc.trans (pyStrip_infix_self s)))
  rw [e3]
  exact pyReplace_no_occ (by
    rw [singleton_occ_iff_mem]
    exact fun hm => h2 (mem_of_mem_pyStrip hm))

/-- A split across a single enforced occurrence. -/
theorem pySplit_sep_once {p : Str} (hp : p ≠ []) {x y : Str}
    (h1 : ¬ p <:+: (x ++ p.dropLast)) (h2 : ¬ p <:+: y) :
    pySplit p (x ++ p ++ y) = [x, y] := by
  rw [pySplit_append hp y h1, pySplit_no_occ h2]

theorem scanStep_pos {acc : List Str} {b p : Str} (h : p <:+: b) :
    scanStep (acc, b) p = (acc ++ [p], pyStrip (pyReplace p [] b)) := by
  unfold scanStep
  rw [if_pos h]

theorem scanStep_neg {acc : List Str} {b p : Str} (h : ¬ p <:+: b) :
    scanStep (acc, b) p = (acc, b) := by
  unfold scanStep
  rw [if_neg h]

/-- The scan loop only appends to the accumulator, and only phrases
from the scanned list, each at most once, in scan order. -/
theorem scan_acc_extends (ps : List Str) :
    ∀ (acc : List Str) (b : Str),
      ∃ s, (ps.foldl scanStep (acc, b)).1 = acc ++ s ∧ s.Sublist ps := by
  induction ps with
  | nil =>
    intro acc b
    exact ⟨[], by simp, by simp⟩
  | cons p ps ih =>
    intro acc b
    rw [List.foldl_cons]
    by_cases h : p <:+: b
    · rw [scanStep_pos h]
      obtain ⟨s, hs, hsub⟩ := ih (acc ++ [p]) (pyStrip (pyReplace p [] b))
      exact ⟨p :: s, by rw [hs]; simp, hsub.cons₂ p⟩
    · rw [scanStep_neg h]
      obtain ⟨s, hs, hsub⟩ := ih acc b
      exact ⟨s, hs, hsub.cons p⟩

/-- If the scan produced no activity, the body was never changed and no
phrase of the scanned list occurs in it. -/
theorem scan_acc_empty (ps : List Str) :
    ∀ (b : Str), (ps.foldl scanStep ([], b)).1 = [] →
      (ps.foldl scanStep ([], b)).2 = b ∧ ∀ p ∈ ps, ¬ p <:+: b := by
  induction ps with
  | nil =>
    intro b _
    exact ⟨rfl, by simp⟩
  | cons p ps ih =>
    intro b hacc
    rw [List.foldl_cons] at hacc ⊢
    by_cases h : p <:+: b
    · exfalso
      rw [scanStep_pos h] at hacc
      simp only [List.nil_append] at hacc
      obtain ⟨s, hs, -⟩ := scan_acc_extends ps [p] (pyStrip (pyReplace p [] b))
      rw [hs] at hacc
      simp at hacc
    · rw [scanStep_neg h] at hacc ⊢
      obtain ⟨hb, hnone⟩ := ih b hacc
      refine ⟨hb, ?_⟩
      intro q hq
      rcases List.mem_cons.mp hq with hq | hq
      · exact hq ▸ h
      · exact hnone q hq

/-! ### Space-joined token lists -/

/-- Join a list of tokens with single spaces (the shape of the bodies
the parser scans). -/
def joinTok : List Str → Str
  | [] => []
  | [w] => w
  | w :: ws => w ++ ' ' :: joinTok ws

theorem joinTok_cons₂ (w x : Str) (ws : List Str) :
    joinTok (w :: x :: ws) = w ++ ' ' :: joinTok (x :: ws) := rfl

theorem joinTok_cons (w : Str) {ws : List Str} (h : ws ≠ []) :
    joinTok (w :: ws) = w ++ ' ' :: joinTok ws := by
  cases ws with
  | nil => exact absurd rfl h
  | cons x t => rfl

theorem joinTok_ne_nil {v : Str} (hv : v ≠ []) (pw : List Str) :
    joinTok (v :: pw) ≠ [] := by
  cases pw with
  | nil => exact hv
  | cons x t =>
    rw [joinTok_cons₂]
    intro h
    have := congrArg List.length h
    simp at this

theorem joinTok_append {l r : List Str} (hl : l ≠ []) (hr : r ≠ []) :
    joinTok (l ++ r) = joinTok l ++ ' ' :: joinTok r := by
  induction l with
  | nil => exact absurd rfl hl
  | cons w l ih =>
    cases l with
    | nil =>
      rw [List.cons_append, List.nil_append, joinTok_cons w hr]
      rfl
    | cons x t =>
      rw [List.cons_append, joinTok_cons w (by simp), joinTok_cons₂,
        ih (by simp)]
      simp

/-- Splitting a space-join of space-free tokens on `' '` recovers the
tokens. -/
theorem splitSp_joinTok : ∀ {ws : List Str}, ws ≠ [] →
    (∀ w ∈ ws, ' ' ∉ w) → pySplit [' '] (joinTok ws) = ws := by
  intro ws
  induction ws with
  | nil => exact fun h _ => absurd rfl h
  | cons w ws ih =>
    intro _ hsp
    cases ws with
    | nil =>
      show pySplit [' '] (joinTok [w]) = [w]
      exact pySplit_no_occ (by
        rw [singleton_occ_iff_mem]
        exact hsp w (by simp))
    | cons x t =>
      rw [joinTok_cons₂]
      have hw : ' ' ∉ w := hsp w (by simp)
      have : w ++ ' ' :: joinTok (x :: t) = w ++ [' '] ++ joinTok (x :: t) := by
        simp
      rw [this, pySplit_append (by simp) _ (by
        show ¬ [' '] <:+: (w ++ List.dropLast [' '])
        simp only [List.dropLast_single, List.append_nil]
        rw [singleton_occ_iff_mem]
        exact hw)]
      rw [ih (by simp) (fun u hu => hsp u (by simp [hu]))]

/-- Easy direction: a word-level occurrence gives a character-level
occurrence of the joins. -/
theorem char_occ_of_word_occ {pw ws : List Str} (h : pw <:+: ws)
    (hpw : pw ≠ []) : joinTok pw <:+: joinTok ws := by
  obtain ⟨l, r, rfl⟩ := h
  by_cases hl : l = [] <;> by_cases hr : r = []
  · subst hl
    subst hr
    simp
  · subst hl
    rw [List.nil_append, joinTok_append hpw hr]
    exact ⟨[], ' ' :: joinTok r, by simp⟩
  · subst hr
    rw [List.append_nil, joinTok_append hl hpw]
    exact ⟨joinTok l ++ [' '], [], by simp⟩
  · have h1 : joinTok (l ++ pw ++ r)
        = joinTok l ++ ' ' :: (joinTok pw ++ ' ' :: joinTok r) := by
      rw [List.append_assoc, joinTok_append hl (by simp [hpw]),
        joinTok_append hpw hr]
    rw [h1]
    exact ⟨joinTok l ++ [' '], ' ' :: joinTok r, by simp⟩

/-- Token-boundary comparison at the head of two space-joined streams:
`v ++ t₁` prefixes `w ++ t₂` where `v`, `w` are space-free, `v` nonempty,
`t₁`, `t₂` are empty or start with a space, and no strict collision of
`v` inside `w` is possible. -/
theorem head_tok_eq {v w t₁ t₂ : Str}
    (hv : v ≠ []) (hvs : ' ' ∉ v)
    (ht₂ : t₂ = [] ∨ ∃ z, t₂ = ' ' :: z)
    (hH : v <:+: w → v = w)
    (h : v ++ t₁ <+: w ++ t₂) : v = w ∧ t₁ <+: t₂ := by
  have hvp : v <+: w ++ t₂ := (List.prefix_append v t₁).trans h
  by_cases hlen : v.length ≤ w.length
  · have hvw : v <+: w := (List.isPrefix_append_of_length hlen).mp hvp
    have hveq : v = w := hH hvw.isInfix
    subst hveq
    exact ⟨rfl, (List.prefix_append_right_inj v).mp h⟩
  · exfalso
    have hwv : w <+: v :=
      List.prefix_of_prefix_length_le (List.prefix_append w t₂) hvp
        (by omega)
    obtain ⟨v₂, rfl⟩ := hwv
    have hv₂ : v₂ ≠ [] := by
      intro h0
      rw [h0] at hlen
      simp at hlen
    rw [List.append_assoc] at h
    have h2 : v₂ ++ t₁ <+: t₂ := (List.prefix_append_right_inj w).mp h
    rcases ht₂ with rfl | ⟨z, rfl⟩
    · have := List.eq_nil_of_prefix_nil h2
      simp [hv₂] at this
    · cases v₂ with
      | nil => exact hv₂ rfl
      | cons c v₂' =>
        rw [List.cons_append, List.cons_prefix_cons] at h2
        apply hvs
        have hc : c = ' ' := h2.1
        subst hc
        simp

/-- A character-level prefix of a space-join, itself a space-join of
collision-free words, is a word-level prefix. -/
theorem word_pre_of_char_pre : ∀ (pw ws : List Str),
    (∀ v ∈ pw, v ≠ [] ∧ ' ' ∉ v) →
    (∀ w ∈ ws, ' ' ∉ w) →
    (∀ w ∈ ws, ∀ v ∈ pw, v <:+: w → v = w) →
    pw ≠ [] → joinTok pw <+: joinTok ws → pw <+: ws := by
  intro pw
  induction pw with
  | nil => exact fun ws _ _ _ h _ => absurd rfl h
  | cons v pw ih =>
    intro ws hpw hws hH _ h
    obtain ⟨hv, hvs⟩ := hpw v (by simp)
    cases ws with
    | nil =>
      exfalso
      exact joinTok_ne_nil hv pw (List.eq_nil_of_prefix_nil h)
    | cons w ws' =>
      have hsplit₁ : joinTok (v :: pw)
          = v ++ (if pw = [] then [] else ' ' :: joinTok pw) := by
        cases pw with
        | nil => simp [joinTok]
        | cons x t => rw [joinTok_cons₂, if_neg (by simp)]
      have hsplit₂ : joinTok (w :: ws')
          = w ++ (if ws' = [] then [] else ' ' :: joinTok ws') := by
        cases ws' with
        | nil => simp [joinTok]
        | cons x t => rw [joinTok_cons₂, if_neg (by simp)]
      rw [hsplit₁, hsplit₂] at h
      have hmain := head_tok_eq hv hvs
        (by
          by_cases hws' : ws' = []
          · exact Or.inl (by rw [if_pos hws'])
          · exact Or.inr ⟨joinTok ws', by rw [if_neg hws']⟩)
        (fun hocc => hH w (by simp) v (by simp) hocc) h
      obtain ⟨hvw, htail⟩ := hmain
      subst hvw
      by_cases hpw' : pw = []
      · subst hpw'
        exact (List.cons_prefix_cons).mpr ⟨rfl, List.nil_prefix⟩
      · rw [if_neg hpw'] at htail
        have hws' : ws' ≠ [] := by
          intro h0
          rw [if_pos h0] at htail
          have := List.eq_nil_of_prefix_nil htail
          simp at this
        rw [if_neg hws'] at htail
        rw [List.cons_prefix_cons] at htail
        have hrec := ih ws' (fun u hu => hpw u (by simp [hu]))
          (fun u hu => hws u (by simp [hu]))
          (fun u hu x hx hocc => hH u (by simp [hu]) x (by simp [hx]) hocc)
          hpw' htail.2
        exact (List.cons_prefix_cons).mpr ⟨rfl, hrec⟩

/-- A character-level occurrence of a space-join of collision-free
words inside a space-join of space-free words is a word-level
occurrence. -/
theorem word_occ_of_char_occ : ∀ (ws pw : List Str),
    (∀ v ∈ pw, v ≠ [] ∧ ' ' ∉ v) →
    (∀ w ∈ ws, ' ' ∉ w) →
    (∀ w ∈ ws, ∀ v ∈ pw, v <:+: w → v = w) →
    pw ≠ [] → joinTok pw <:+: joinTok ws → pw <:+: ws := by
  intro ws
  induction ws with
  | nil =>
    intro pw hpw _ _ hne h
    exfalso
    obtain ⟨v, pw', rfl⟩ := List.exists_cons_of_ne_nil hne
    have hv := (hpw v (by simp)).1
    obtain ⟨s, t, hst⟩ := h
    have hst' : (s ++ joinTok (v :: pw')) ++ t = ([] : Str) := by
      simpa [joinTok, List.append_assoc] using hst
    have h1 := List.append_eq_nil.mp hst'
    have h2 := List.append_eq_nil.mp h1.1
    exact joinTok_ne_nil hv pw' h2.2
  | cons w ws' ih =>
    intro pw hpw hws hH hne h
    by_cases hws' : ws' = []
    · subst hws'
      have hw : joinTok pw <:+: w := h
      obtain ⟨v, pw', rfl⟩ := List.exists_cons_of_ne_nil hne
      cases pw' with
      | nil =>
        have hveq : v = w := hH w (by simp) v (by simp) hw
        subst hveq
        exact List.infix_rfl
      | cons x t =>
        exfalso
        have hsp : ' ' ∈ joinTok (v :: x :: t) := by
          rw [joinTok_cons₂]
          simp
        exact hws w (by simp) (hw.subset hsp)
    · rw [joinTok_cons w hws'] at h
      obtain ⟨X, Y, hE⟩ := h
      have hE2 : X ++ (joinTok pw ++ Y)
          = (w ++ [' ']) ++ joinTok ws' := by
        calc X ++ (joinTok pw ++ Y) = X ++ joinTok pw ++ Y := by
              simp [List.append_assoc]
        _ = w ++ ' ' :: joinTok ws' := hE
        _ = (w ++ [' ']) ++ joinTok ws' := by simp
      have hws'' : ∀ u ∈ ws', ' ' ∉ u := fun u hu => hws u (by simp [hu])
      have hH' : ∀ u ∈ ws', ∀ x ∈ pw, x <:+: u → x = u :=
        fun u hu x hx => hH u (by simp [hu]) x hx
      rcases List.append_eq_append_iff.mp hE2 with
        ⟨c', hwc, hpc⟩ | ⟨a', hXa, hwsa⟩
      rotate_left
      · have hocc : joinTok pw <:+: joinTok ws' :=
          ⟨a', Y, by rw [hwsa, List.append_assoc]⟩
        exact List.infix_cons (ih pw hpw hws'' hH' hne hocc)
      · by_cases hc' : c' = []
        · subst hc'
          have hp : joinTok pw <+: joinTok ws' := ⟨Y, by simpa using hpc⟩
          exact List.infix_cons
            ((word_pre_of_char_pre pw ws' hpw hws'' hH' hne hp).isInfix)
        · -- c' = b ++ [' '] with b a suffix of w
          have hsuf : c' <:+ w ++ [' '] := ⟨X, hwc.symm⟩
          have hrevp : c'.reverse <+: ' ' :: w.reverse := by
            have hr := List.reverse_prefix.mpr hsuf
            rwa [List.reverse_append, List.reverse_singleton,
              List.singleton_append] at hr
          obtain ⟨cr, crt, hcrt⟩ :=
            List.exists_cons_of_ne_nil
              (show c'.reverse ≠ [] by
                intro h0
                exact hc' (by
                  have h1 := congrArg List.reverse h0
                  simpa using h1))
          rw [hcrt, List.cons_prefix_cons] at hrevp
          obtain ⟨hcr, hcrtp⟩ := hrevp
          have hbw : crt.reverse <:+ w :=
            List.reverse_prefix.mp (by simpa using hcrtp)
          have hc'b : c' = crt.reverse ++ [' '] := by
            have h4 : c' = (cr :: crt).reverse := by
              rw [← hcrt, List.reverse_reverse]
            rw [h4, hcr]
            simp
          rw [hc'b] at hpc
          obtain ⟨v, pw', rfl⟩ := List.exists_cons_of_ne_nil hne
          obtain ⟨hv, hvs⟩ := hpw v (by simp)
          have hsplit₁ : joinTok (v :: pw')
              = v ++ (if pw' = [] then [] else ' ' :: joinTok pw') := by
            cases pw' with
            | nil => simp [joinTok]
            | cons x t => rw [joinTok_cons₂, if_neg (by simp)]
          have hpc' : v ++ ((if pw' = [] then [] else ' ' :: joinTok pw')
              ++ Y) = crt.reverse ++ ([' '] ++ joinTok ws') := by
            rw [← List.append_assoc, ← hsplit₁, hpc]
            simp [List.append_assoc]
          have hvp : v <+: crt.reverse ++ ([' '] ++ joinTok ws') := by
            rw [← hpc']
            exact ⟨_, rfl⟩
          by_cases hlen : v.length ≤ crt.reverse.length
          · -- the head word aligns with the end of `w`, so `X = []`
            have hvb : v <+: crt.reverse :=
              (List.isPrefix_append_of_length hlen).mp hvp
            have hveq : v = w := hH w (by simp) v (by simp)
              (hvb.isInfix.trans hbw.isInfix)
            have hbeq : crt.reverse = w := hbw.eq_of_length (by
              have h1 := hbw.length_le
              have h2 : v.length = w.length := by rw [hveq]
              have h3 := hvb.length_le
              omega)
            have hX : X = [] := by
              rw [hc'b, hbeq] at hwc
              have h5 := congrArg List.length hwc
              simp only [List.length_append, List.length_cons,
                List.length_nil] at h5
              have h6 : X.length = 0 := by omega
              exact List.length_eq_zero.mp h6
            have hp : joinTok (v :: pw') <+: joinTok (w :: ws') := by
              rw [joinTok_cons w hws']
              rw [hX, List.nil_append] at hE
              exact ⟨Y, hE⟩
            exact (word_pre_of_char_pre (v :: pw') (w :: ws') hpw hws hH
              hne hp).isInfix
          · -- the head word would have to contain the separator space
            exfalso
            have hbv : crt.reverse <+: v :=
              List.prefix_of_prefix_length_le
                (List.prefix_append crt.reverse _) hvp (by omega)
            obtain ⟨v₂, hv₂eq⟩ := hbv
            have hv₂ : v₂ ≠ [] := by
              intro h0
              rw [h0, List.append_nil] at hv₂eq
              rw [← hv₂eq] at hlen
              simp at hlen
            have hxx : v₂ ++ ((if pw' = [] then [] else ' ' :: joinTok pw')
                ++ Y) = [' '] ++ joinTok ws' := by
              apply (List.append_right_inj crt.reverse).mp
              rw [← List.append_assoc, hv₂eq, hpc']
            obtain ⟨c2, v₂', rfl⟩ := List.exists_cons_of_ne_nil hv₂
            have hc2 : c2 = ' ' := by
              have h6 := congrArg (fun l => l.head?) hxx
              simpa using h6
            apply hvs
            rw [← hv₂eq, hc2]
            simp

/-! ### Trimming lists of words at both ends -/

/-- The word-emptiness test used to describe what happens to a removed
phrase's position. -/
def emt (w : Str) : Bool := w.isEmpty

/-- Drop the empty words at both ends of a word list. -/
def trimEnds (M : List Str) : List Str := dropTrail emt (M.dropWhile emt)

theorem emt_iff {w : Str} : emt w = true ↔ w = [] := by
  cases w <;> simp [emt]

theorem emt_false {w : Str} (hw : w ≠ []) : emt w = false := by
  rw [Bool.eq_false_iff]
  intro hc
  exact hw (emt_iff.mp hc)

theorem dropWhile_absorb {p : α → Bool} {E : List α}
    (hE : ∀ w ∈ E, p w) (Z : List α) :
    (E ++ Z).dropWhile p = Z.dropWhile p := by
  induction E with
  | nil => rfl
  | cons e E' ih =>
    rw [List.cons_append, List.dropWhile_cons_of_pos (hE e (by simp))]
    exact ih (fun w hw => hE w (by simp [hw]))

theorem dropWhile_stable (p : α → Bool) (X Z : List α) :
    ((X.dropWhile p) ++ Z).dropWhile p = (X ++ Z).dropWhile p := by
  have h1 : X ++ Z = X.takeWhile p ++ (X.dropWhile p ++ Z) := by
    rw [← List.append_assoc, List.takeWhile_append_dropWhile]
  rw [h1]
  exact (dropWhile_absorb (fun w hw => List.mem_takeWhile_imp hw) _).symm

theorem dropWhile_reach {p : α → Bool} {w : α} (hw : p w = false)
    (X Z : List α) :
    (X ++ w :: Z).dropWhile p = X.dropWhile p ++ w :: Z := by
  rw [List.dropWhile_append]
  split
  case isTrue h =>
    rw [List.isEmpty_iff] at h
    rw [h, List.nil_append, List.dropWhile_cons_of_neg (by simp [hw])]
  case isFalse h => rfl

theorem dropTrail_rev (p : α → Bool) (Y : List α) :
    (dropTrail p Y).reverse = Y.reverse.dropWhile p := by
  unfold dropTrail
  rw [List.reverse_reverse]

theorem dropTrail_append_stable (p : α → Bool) (E Y : List α) :
    dropTrail p (E ++ dropTrail p Y) = dropTrail p (E ++ Y) := by
  show ((E ++ dropTrail p Y).reverse.dropWhile p).reverse
      = ((E ++ Y).reverse.dropWhile p).reverse
  rw [List.reverse_append, List.reverse_append, dropTrail_rev p Y,
    dropWhile_stable]

theorem dropTrail_reach {p : α → Bool} {w : α} (hw : p w = false)
    (X Z : List α) :
    dropTrail p (X ++ w :: Z) = X ++ w :: dropTrail p Z := by
  show ((X ++ w :: Z).reverse.dropWhile p).reverse
      = X ++ w :: dropTrail p Z
  rw [List.reverse_append, List.reverse_cons, List.append_assoc,
    List.singleton_append, dropWhile_reach hw]
  show (Z.reverse.dropWhile p ++ w :: X.reverse).reverse
      = X ++ w :: ((Z.reverse.dropWhile p).reverse)
  simp

theorem dropTrail_idem (p : α → Bool) (M : List α) :
    dropTrail p (dropTrail p M) = dropTrail p M := by
  unfold dropTrail
  rw [List.reverse_reverse, dropWhile_idem]

theorem dropTrail_keep {p : α → Bool} {D : List α}
    (h : ∃ w ∈ D, p w = false) (E : List α) :
    dropTrail p (E ++ D) = E ++ dropTrail p D := by
  unfold dropTrail
  rw [List.reverse_append, List.dropWhile_append]
  split
  case isTrue hc =>
    exfalso
    rw [List.isEmpty_iff, List.dropWhile_eq_nil_iff] at hc
    obtain ⟨w, hw, hpw⟩ := h
    have := hc w (List.mem_reverse.mpr hw)
    rw [this] at hpw
    exact absurd hpw (by simp)
  case isFalse hc =>
    rw [List.reverse_append, List.reverse_reverse]

theorem dropWhile_dropTrail_comm (p : α → Bool) (Y : List α) :
    (dropTrail p Y).dropWhile p = dropTrail p (Y.dropWhile p) := by
  by_cases hD : Y.dropWhile p = []
  · have hall : ∀ w ∈ Y, p w := List.dropWhile_eq_nil_iff.mp hD
    have h1 : dropTrail p Y = [] := by
      unfold dropTrail
      rw [List.dropWhile_eq_nil_iff.mpr
        (fun x hx => hall x (List.mem_reverse.mp hx))]
      rfl
    rw [h1, hD]
    rfl
  · obtain ⟨d, D', hDeq⟩ := List.exists_cons_of_ne_nil hD
    have hd : p d = false := by
      have hh := List.head?_dropWhile_not p Y
      rw [hDeq] at hh
      simpa using hh
    conv_lhs =>
      rw [← List.takeWhile_append_dropWhile (p := p) (l := Y), hDeq]
    rw [dropTrail_keep ⟨d, by simp, hd⟩]
    rw [dropWhile_absorb (fun w hw => List.mem_takeWhile_imp hw)]
    rw [hDeq]
    cases hT : dropTrail p (d :: D') with
    | nil => rfl
    | cons a T =>
      have hprefix : dropTrail p (d :: D') <+: d :: D' :=
        dropTrail_prefix_self p _
      rw [hT] at hprefix
      have had : a = d := by
        obtain ⟨t2, ht2⟩ := hprefix
        rw [List.cons_append] at ht2
        exact (List.cons.injEq .. ▸ ht2).1
      rw [had, List.dropWhile_cons_of_neg (by simp [hd])]

theorem trimEnds_front (X W : List Str) :
    trimEnds (X.dropWhile emt ++ W) = trimEnds (X ++ W) := by
  unfold trimEnds
  rw [dropWhile_stable]

theorem trimEnds_back (Z Y : List Str) :
    trimEnds (Z ++ dropTrail emt Y) = trimEnds (Z ++ Y) := by
  unfold trimEnds
  rw [List.dropWhile_append, List.dropWhile_append]
  by_cases hc : (Z.dropWhile emt).isEmpty
  · rw [if_pos hc, if_pos hc, dropWhile_dropTrail_comm, dropTrail_idem]
  · rw [if_neg hc, if_neg hc, dropTrail_append_stable]

/-- Decomposing the trim of `X ++ Wp ++ Y` for a block `Wp` with
nonempty first and last word. -/
theorem trimEnds_decomp {X Y Wp : List Str}
    (hh : ∃ w W', Wp = w :: W' ∧ w ≠ [])
    (hl : ∃ w W', Wp = W' ++ [w] ∧ w ≠ []) :
    trimEnds (X ++ Wp ++ Y)
      = X.dropWhile emt ++ Wp ++ dropTrail emt Y := by
  obtain ⟨w1, W1, hW1, hw1⟩ := hh
  obtain ⟨w2, W2, hW2, hw2⟩ := hl
  unfold trimEnds
  have hfront : (X ++ Wp ++ Y).dropWhile emt
      = X.dropWhile emt ++ Wp ++ Y := by
    rw [hW1, List.append_assoc, List.cons_append]
    rw [dropWhile_reach (emt_false hw1)]
    rw [← List.cons_append, ← List.append_assoc, ← hW1]
  rw [hfront]
  rw [hW2, ← List.append_assoc, List.append_assoc (X.dropWhile emt ++ W2),
    List.singleton_append]
  rw [dropTrail_reach (emt_false hw2)]
  simp [List.append_assoc]

/-- `dropWhile isSpc` on a space-join of whitespace-free words removes
exactly the leading empty words. -/
theorem dropWhile_spc_joinTok : ∀ {M : List Str},
    (∀ w ∈ M, ∀ c ∈ w, isSpc c = false) →
    (joinTok M).dropWhile isSpc = joinTok (M.dropWhile emt) := by
  intro M
  induction M with
  | nil => intro _; rfl
  | cons w M' ih =>
    intro hM
    by_cases hw : w = []
    · subst hw
      cases M' with
      | nil => rfl
      | cons x t =>
        have h1 : joinTok ([] :: x :: t) = ' ' :: joinTok (x :: t) := by
          rw [joinTok_cons₂]
          rfl
        rw [h1, List.dropWhile_cons_of_pos (by decide)]
        rw [ih (fun u hu c hc => hM u (by simp [hu]) c hc)]
        have h2 : (([] : Str) :: x :: t).dropWhile emt
            = (x :: t).dropWhile emt := by
          rw [List.dropWhile_cons_of_pos (by simp [emt])]
        rw [h2]
    · obtain ⟨c0, w', rfl⟩ := List.exists_cons_of_ne_nil hw
      have hc0 : isSpc c0 = false := hM (c0 :: w') (by simp) c0 (by simp)
      cases M' with
      | nil =>
        show ((c0 :: w').dropWhile isSpc) = joinTok (((c0 :: w') :: []).dropWhile emt)
        rw [List.dropWhile_cons_of_neg (by simp [hc0])]
        rw [List.dropWhile_cons_of_neg (by simp [emt])]
        rfl
      | cons x t =>
        rw [joinTok_cons₂, List.cons_append]
        rw [List.dropWhile_cons_of_neg (by simp [hc0])]
        rw [List.dropWhile_cons_of_neg (by simp [emt])]
        rw [joinTok_cons₂, List.cons_append]

/-- Reversing a space-join reverses the words and their order. -/
theorem joinTok_reverse : ∀ (M : List Str),
    (joinTok M).reverse = joinTok (M.reverse.map List.reverse) := by
  intro M
  induction M with
  | nil => rfl
  | cons w M' ih =>
    cases M' with
    | nil => simp [joinTok]
    | cons x t =>
      rw [joinTok_cons₂, List.reverse_append, List.reverse_cons, ih]
      have h1 : ((w :: x :: t).reverse.map List.reverse)
          = ((x :: t).reverse.map List.reverse) ++ [w.reverse] := by
        simp
      rw [h1, joinTok_append (by simp) (by simp)]
      simp [List.append_assoc, joinTok]

theorem emt_reverse (w : Str) : emt w.reverse = emt w := by
  cases w with
  | nil => rfl
  | cons a t =>
    have h1 : emt (a :: t) = false := by simp [emt]
    have h2 : emt ((a :: t).reverse) = false := by
      rw [List.reverse_cons]
      cases h : t.reverse with
      | nil => simp [emt]
      | cons b u => simp [emt]
    rw [h1, h2]

/-- `pyStrip` of a space-join of whitespace-free words is the join of
the trimmed word list. -/
theorem pyStrip_joinTok {M : List Str}
    (hM : ∀ w ∈ M, ∀ c ∈ w, isSpc c = false) :
    pyStrip (joinTok M) = joinTok (trimEnds M) := by
  unfold pyStrip trimEnds
  rw [dropWhile_spc_joinTok hM]
  show (((joinTok (M.dropWhile emt)).reverse).dropWhile isSpc).reverse = _
  rw [joinTok_reverse]
  have hM1 : ∀ w ∈ ((M.dropWhile emt).reverse.map List.reverse),
      ∀ c ∈ w, isSpc c = false := by
    intro w hw c hc
    rw [List.mem_map] at hw
    obtain ⟨u, hu, rfl⟩ := hw
    have hu' : u ∈ M := List.dropWhile_subset _ (List.mem_reverse.mp hu)
    exact hM u hu' c (List.mem_reverse.mp hc)
  rw [dropWhile_spc_joinTok hM1]
  have hpe : ((M.dropWhile emt).reverse.map List.reverse).dropWhile emt
      = (((M.dropWhile emt).reverse).dropWhile emt).map List.reverse := by
    rw [List.dropWhile_map]
    have : (emt ∘ List.reverse) = (emt : Str → Bool) :=
      funext (fun w => emt_reverse w)
    rw [this]
  rw [hpe, joinTok_reverse]
  have hsimp : ((((M.dropWhile emt).reverse.dropWhile emt).map
        List.reverse).reverse).map List.reverse
      = ((M.dropWhile emt).reverse.dropWhile emt).reverse := by
    rw [List.reverse_map, List.map_map]
    have : (List.reverse ∘ List.reverse : Str → Str) = id :=
      funext (fun w => List.reverse_reverse w)
    rw [this, List.map_id]
  rw [hsimp]
  rfl

theorem mem_of_mem_trimEnds {w : Str} {M : List Str}
    (h : w ∈ trimEnds M) : w ∈ M := by
  unfold trimEnds dropTrail at h
  have h1 := List.mem_reverse.mp h
  have h2 := List.dropWhile_subset _ h1
  have h3 := List.mem_reverse.mp h2
  exact List.dropWhile_subset _ h3

/-! ### Masked word blocks for the scan loop -/

/-- The words of a phrase. -/
def wordsOf (p : Str) : List Str := pySplit [' '] p

/-- Every word of every vocabulary phrase. -/
def vocabWords : List Str := (activity_types.map wordsOf).flatten

/-- The word block a phrase contributes to the body: its words while
unscanned, a single empty word once removed. -/
def blockAt (scanned : List Str) (q : Str) : List Str :=
  if q ∈ scanned then [[]] else wordsOf q

/-- The word blocks the phrase list `A` contributes, masked by the
already-scanned phrases. -/
def maskBlocks (scanned A : List Str) : List Str :=
  (A.map (blockAt scanned)).flatten

theorem maskBlocks_append (scanned A1 A2 : List Str) :
    maskBlocks scanned (A1 ++ A2)
      = maskBlocks scanned A1 ++ maskBlocks scanned A2 := by
  simp [maskBlocks]

theorem maskBlocks_cons (scanned : List Str) (q : Str) (A : List Str) :
    maskBlocks scanned (q :: A)
      = blockAt scanned q ++ maskBlocks scanned A := by
  simp [maskBlocks]

theorem maskBlocks_congr {s₁ s₂ A : List Str}
    (h : ∀ q ∈ A, (q ∈ s₁ ↔ q ∈ s₂)) :
    maskBlocks s₁ A = maskBlocks s₂ A := by
  unfold maskBlocks
  congr 1
  apply List.map_congr_left
  intro q hq
  unfold blockAt
  by_cases h1 : q ∈ s₁
  · rw [if_pos h1, if_pos ((h q hq).mp h1)]
  · rw [if_neg h1, if_neg (fun h2 => h1 ((h q hq).mpr h2))]

theorem mem_maskBlocks {w : Str} {scanned A : List Str}
    (h : w ∈ maskBlocks scanned A) :
    ∃ q ∈ A, w ∈ blockAt scanned q := by
  unfold maskBlocks at h
  rw [List.mem_flatten] at h
  obtain ⟨l, hl, hw⟩ := h
  rw [List.mem_map] at hl
  obtain ⟨q, hq, rfl⟩ := hl
  exact ⟨q, hq, hw⟩

theorem mem_vocabWords {w q : Str} (hq : q ∈ activity_types)
    (hw : w ∈ wordsOf q) : w ∈ vocabWords := by
  unfold vocabWords
  rw [List.mem_flatten]
  exact ⟨wordsOf q, List.mem_map.mpr ⟨q, hq, rfl⟩, hw⟩

theorem vocab_words_wf :
    ∀ v ∈ vocabWords, v ≠ [] ∧ ∀ c ∈ v, isSpc c = false := by decide

theorem vocab_words_no_collide :
    ∀ v ∈ vocabWords, ∀ w ∈ vocabWords, v <:+: w → v = w := by decide

theorem sp_notin_of_wf {w : Str} (h : ∀ c ∈ w, isSpc c = false) :
    ' ' ∉ w := by
  intro hc
  have := h ' ' hc
  exact absurd this (by decide)

/-- Characterize the words of a masked body. -/
theorem mem_mask_char {w : Str} {ts scanned A : List Str}
    (h : w ∈ ts ++ maskBlocks scanned A) :
    w ∈ ts ∨ w = [] ∨ ∃ q ∈ A, q ∉ scanned ∧ w ∈ wordsOf q := by
  rcases List.mem_append.mp h with hw | hw
  · exact Or.inl hw
  · obtain ⟨q, hq, hwq⟩ := mem_maskBlocks hw
    unfold blockAt at hwq
    by_cases hs : q ∈ scanned
    · rw [if_pos hs] at hwq
      simp at hwq
      exact Or.inr (Or.inl hwq)
    · rw [if_neg hs] at hwq
      exact Or.inr (Or.inr ⟨q, hq, hs, hwq⟩)

theorem mem_of_mem_dropTrail {p : α → Bool} {w : α} {M : List α}
    (h : w ∈ dropTrail p M) : w ∈ M := by
  unfold dropTrail at h
  have h1 := List.mem_reverse.mp h
  have h2 := List.dropWhile_subset _ h1
  exact List.mem_reverse.mp h2

/-- An occurrence of a pair in an append either starts in the left part
or lies in the right part. -/
theorem pair_split {a b : Str} : ∀ {M₁ M₂ : List Str},
    [a, b] <:+: M₁ ++ M₂ → a ∈ M₁ ∨ [a, b] <:+: M₂ := by
  intro M₁
  induction M₁ with
  | nil =>
    intro M₂ h
    right
    simpa using h
  | cons m M' ih =>
    intro M₂ h
    rw [List.cons_append] at h
    rcases List.infix_cons_iff.mp h with hp | hi
    · left
      rw [List.cons_prefix_cons] at hp
      rw [hp.1]
      simp
    · rcases ih hi with h1 | h2
      · exact Or.inl (List.mem_cons_of_mem _ h1)
      · exact Or.inr h2

theorem head_mem_of_occ {w : Str} {T M : List Str}
    (h : (w :: T) <:+: M) : w ∈ M :=
  h.subset (by simp)

/-- The characters before and after a removed block. -/
def preX (L : List Str) : Str := if L.isEmpty then [] else joinTok L ++ [' ']

def postY (R : List Str) : Str := if R.isEmpty then [] else ' ' :: joinTok R

theorem joinTok_block {Wp : List Str} (hWp : Wp ≠ []) (L R : List Str) :
    joinTok (L ++ Wp ++ R) = preX L ++ joinTok Wp ++ postY R := by
  unfold preX postY
  by_cases hL : L = [] <;> by_cases hR : R = []
  · subst hL
    subst hR
    simp
  · subst hL
    rw [List.nil_append, joinTok_append hWp hR]
    simp [List.isEmpty_iff, hR]
  · subst hR
    rw [List.append_nil, joinTok_append hL hWp]
    simp [List.isEmpty_iff, hL]
  · rw [List.append_assoc, joinTok_append hL (by simp [hWp]),
      joinTok_append hWp hR]
    simp [List.isEmpty_iff, hL, hR, List.append_assoc]

theorem joinTok_hole (L R : List Str) :
    preX L ++ postY R = joinTok (L ++ [[]] ++ R) := by
  unfold preX postY
  by_cases hL : L = [] <;> by_cases hR : R = []
  · subst hL
    subst hR
    simp [joinTok]
  · subst hL
    rw [List.nil_append, List.singleton_append, joinTok_cons [] hR]
    simp [List.isEmpty_iff, hR]
  · subst hR
    rw [List.append_nil, joinTok_append hL (by simp)]
    simp [List.isEmpty_iff, hL, joinTok]
  · rw [List.append_assoc, joinTok_append hL (by simp),
      List.singleton_append, joinTok_cons [] hR]
    simp [List.isEmpty_iff, hL, hR]

theorem preX_join (L W : List Str) (hW : W ≠ []) :
    preX L ++ joinTok W = joinTok (L ++ W) := by
  unfold preX
  by_cases hL : L = []
  · subst hL
    simp
  · rw [joinTok_append hL hW]
    simp [List.isEmpty_iff, hL, List.append_assoc]

theorem replace_once {p X Y : Str} (hp : p ≠ [])
    (hnox : ¬ p <:+: (X ++ p.dropLast)) (hnoy : ¬ p <:+: Y) :
    pyReplace p [] (X ++ p ++ Y) = X ++ Y := by
  unfold pyReplace
  rw [pySplit_sep_once hp hnox hnoy]
  rw [intercalate_cons_cons, intercalate_single]
  simp

theorem head_not_in_mask
    {ts A scanned : List Str} {p w1 : Str}
    (htsv : ∀ t ∈ ts, ∀ v ∈ vocabWords, ¬ v <:+: t)
    (hA : ∀ q ∈ A, q ∈ activity_types)
    (hw1v : w1 ∈ vocabWords)
    (hfresh : ∀ q ∈ activity_types, q ∉ scanned → q ≠ p → w1 ∉ wordsOf q)
    (hAp : ∀ q ∈ A, q ≠ p) :
    w1 ∉ ts ++ maskBlocks scanned A := by
  intro hmem
  rcases mem_mask_char hmem with hts | h0 | ⟨q, hq, hqs, hqw⟩
  · exact htsv w1 hts w1 hw1v List.infix_rfl
  · exact (vocab_words_wf w1 hw1v).1 h0
  · exact hfresh q (hA q hq) hqs (hAp q hq) hqw

theorem mask_H {ts A scanned : List Str}
    (htsv : ∀ t ∈ ts, ∀ v ∈ vocabWords, ¬ v <:+: t)
    (hA : ∀ q ∈ A, q ∈ activity_types)
    {Wp : List Str} (hwpv : ∀ v ∈ Wp, v ∈ vocabWords) :
    ∀ w ∈ ts ++ maskBlocks scanned A, ∀ v ∈ Wp, v <:+: w → v = w := by
  intro w hw v hv hocc
  rcases mem_mask_char hw with hts | rfl | ⟨q, hq, -, hqw⟩
  · exact absurd hocc (htsv w hts v (hwpv v hv))
  · exact absurd (List.eq_nil_of_infix_nil hocc)
      (vocab_words_wf v (hwpv v hv)).1
  · exact vocab_words_no_collide v (hwpv v hv) w
      (mem_vocabWords (hA q hq) hqw) hocc

theorem mask_sp {ts A scanned : List Str}
    (hts : ∀ t ∈ ts, ∀ c ∈ t, isSpc c = false)
    (hA : ∀ q ∈ A, q ∈ activity_types) :
    ∀ w ∈ ts ++ maskBlocks scanned A, ∀ c ∈ w, isSpc c = false := by
  intro w hw
  rcases mem_mask_char hw with h | rfl | ⟨q, hq, -, hqw⟩
  · exact hts w h
  · intro c hc
    simp at hc
  · exact (vocab_words_wf w (mem_vocabWords (hA q hq) hqw)).2

/-- One step of the explicit-activities scan on a masked body: testing
phrase `p` against the body succeeds exactly when `p` is among the
description's phrases and not yet removed, and removing it empties its
block. -/
theorem scan_step_main
    (ts A scanned : List Str) (p : Str) (acc : List Str)
    (hts : ∀ t ∈ ts, t ≠ [] ∧ ∀ c ∈ t, isSpc c = false)
    (htsv : ∀ t ∈ ts, ∀ v ∈ vocabWords, ¬ v <:+: t)
    (hA : ∀ q ∈ A, q ∈ activity_types)
    (hnd : A.Nodup)
    (hp_scan : p ∉ scanned)
    (hwpv : ∀ v ∈ wordsOf p, v ∈ vocabWords)
    (hjp : joinTok (wordsOf p) = p)
    (hsh : (∃ w, wordsOf p = [w] ∧ w.dropLast ≠ []
              ∧ (∀ c ∈ w.dropLast, isSpc c = false)
              ∧ ∀ v ∈ wordsOf p, ¬ v <:+: w.dropLast)
         ∨ (∃ u1 u2, wordsOf p = [u1, u2] ∧ u2.dropLast ≠ []
              ∧ (∀ c ∈ u2.dropLast, isSpc c = false)
              ∧ ∀ v ∈ wordsOf p, ¬ v <:+: u2.dropLast))
    (hfresh : ∀ q ∈ activity_types, q ∉ scanned → q ≠ p →
        (wordsOf p).headI ∉ wordsOf q) :
    scanStep (acc, joinTok (trimEnds (ts ++ maskBlocks scanned A))) p
      = (acc ++ (if p ∈ A then [p] else []),
         joinTok (trimEnds (ts ++ maskBlocks (p :: scanned) A))) := by
  have hts_sp : ∀ t ∈ ts, ∀ c ∈ t, isSpc c = false := fun t ht => (hts t ht).2
  have hWp_wf : ∀ v ∈ wordsOf p, v ≠ [] ∧ ' ' ∉ v := fun v hv =>
    ⟨(vocab_words_wf v (hwpv v hv)).1,
     sp_notin_of_wf (vocab_words_wf v (hwpv v hv)).2⟩
  have hWp_ne : wordsOf p ≠ [] := by
    rcases hsh with ⟨w, hW, -⟩ | ⟨u1, u2, hW, -⟩ <;> simp [hW]
  obtain ⟨w1, Wtail, hWhead⟩ := List.exists_cons_of_ne_nil hWp_ne
  have hw1mem : w1 ∈ wordsOf p := by
    rw [hWhead]
    simp
  have hw1v : w1 ∈ vocabWords := hwpv w1 hw1mem
  have hw1ne : w1 ≠ [] := (hWp_wf w1 hw1mem).1
  have hfresh1 : ∀ q ∈ activity_types, q ∉ scanned → q ≠ p →
      w1 ∉ wordsOf q := by
    intro q h1 h2 h3
    have := hfresh q h1 h2 h3
    rw [hWhead] at this
    exact this
  have hp_ne : p ≠ [] := by
    rw [← hjp, hWhead]
    exact joinTok_ne_nil hw1ne Wtail
  by_cases hpA : p ∈ A
  case neg =>
    rw [if_neg hpA]
    have hmask : maskBlocks (p :: scanned) A = maskBlocks scanned A :=
      maskBlocks_congr (fun q hq => by
        simp only [List.mem_cons]
        constructor
        · rintro (rfl | h)
          · exact absurd hq hpA
          · exact h
        · exact fun h => Or.inr h)
    rw [hmask]
    have htest : ¬ p <:+: joinTok (trimEnds (ts ++ maskBlocks scanned A)) := by
      intro hocc
      rw [← hjp] at hocc
      have hNsub : ∀ w ∈ trimEnds (ts ++ maskBlocks scanned A),
          w ∈ ts ++ maskBlocks scanned A := fun w hw => mem_of_mem_trimEnds hw
      have hword := word_occ_of_char_occ
        (trimEnds (ts ++ maskBlocks scanned A)) (wordsOf p) hWp_wf
        (fun w hw => sp_notin_of_wf (mask_sp hts_sp hA w (hNsub w hw)))
        (fun w hw => mask_H htsv hA hwpv w (hNsub w hw))
        hWp_ne hocc
      rw [hWhead] at hword
      exact head_not_in_mask htsv hA hw1v hfresh1
        (fun q hq hqp => hpA (hqp ▸ hq)) (hNsub w1 (head_mem_of_occ hword))
    rw [scanStep_neg htest]
    simp
  case pos =>
    rw [if_pos hpA]
    obtain ⟨A1, A2, rfl⟩ := List.append_of_mem hpA
    have hnd' := List.nodup_append.mp hnd
    have hpA1 : p ∉ A1 := fun h => hnd'.2.2 h (List.mem_cons_self p A2)
    have hpA2 : p ∉ A2 := (List.nodup_cons.mp hnd'.2.1).1
    have hA1 : ∀ q ∈ A1, q ∈ activity_types := fun q hq => hA q (by simp [hq])
    have hA2 : ∀ q ∈ A2, q ∈ activity_types := fun q hq => hA q (by simp [hq])
    have hblockp : blockAt scanned p = wordsOf p := by
      unfold blockAt
      rw [if_neg hp_scan]
    have hblocks : maskBlocks scanned (A1 ++ p :: A2)
        = maskBlocks scanned A1 ++ (wordsOf p ++ maskBlocks scanned A2) := by
      rw [maskBlocks_append, maskBlocks_cons, hblockp]
    have hhd : ∃ w W', wordsOf p = w :: W' ∧ w ≠ [] :=
      ⟨w1, Wtail, hWhead, hw1ne⟩
    have hlst : ∃ w W', wordsOf p = W' ++ [w] ∧ w ≠ [] := by
      rcases hsh with ⟨w, hW, -, -, -⟩ | ⟨u1, u2, hW, -, -, -⟩
      · exact ⟨w, [], by simp [hW], (hWp_wf w (by simp [hW])).1⟩
      · exact ⟨u2, [u1], by simp [hW], (hWp_wf u2 (by simp [hW])).1⟩
    have hdecomp : trimEnds (ts ++ maskBlocks scanned (A1 ++ p :: A2))
        = (ts ++ maskBlocks scanned A1).dropWhile emt ++ wordsOf p
          ++ dropTrail emt (maskBlocks scanned A2) := by
      rw [hblocks, ← List.append_assoc, ← List.append_assoc]
      exact trimEnds_decomp hhd hlst
    have hLmem : ∀ w ∈ (ts ++ maskBlocks scanned A1).dropWhile emt,
        w ∈ ts ++ maskBlocks scanned A1 :=
      fun w hw => List.dropWhile_subset _ hw
    have hRmem : ∀ w ∈ dropTrail emt (maskBlocks scanned A2),
        w ∈ ([] : List Str) ++ maskBlocks scanned A2 := by
      intro w hw
      rw [List.nil_append]
      exact mem_of_mem_dropTrail hw
    have htest : p <:+:
        joinTok (trimEnds (ts ++ maskBlocks scanned (A1 ++ p :: A2))) := by
      rw [hdecomp]
      have hocc0 : joinTok (wordsOf p) <:+: joinTok
          ((ts ++ maskBlocks scanned A1).dropWhile emt ++ wordsOf p
            ++ dropTrail emt (maskBlocks scanned A2)) :=
        char_occ_of_word_occ ⟨_, _, rfl⟩ hWp_ne
      rw [hjp] at hocc0
      exact hocc0
    rw [scanStep_pos htest]
    have hB1' : maskBlocks (p :: scanned) A1 = maskBlocks scanned A1 :=
      maskBlocks_congr (fun q hq => by
        simp only [List.mem_cons]
        constructor
        · rintro (rfl | h)
          · exact absurd hq hpA1
          · exact h
        · exact fun h => Or.inr h)
    have hB2' : maskBlocks (p :: scanned) A2 = maskBlocks scanned A2 :=
      maskBlocks_congr (fun q hq => by
        simp only [List.mem_cons]
        constructor
        · rintro (rfl | h)
          · exact absurd hq hpA2
          · exact h
        · exact fun h => Or.inr h)
    have hblockp' : blockAt (p :: scanned) p = [[]] := by
      unfold blockAt
      rw [if_pos (by simp)]
    have hmask' : ts ++ maskBlocks (p :: scanned) (A1 ++ p :: A2)
        = ((ts ++ maskBlocks scanned A1) ++ [[]])
          ++ maskBlocks scanned A2 := by
      rw [maskBlocks_append, maskBlocks_cons, hblockp', hB1', hB2']
      simp [List.append_assoc]
    have hnoy : ¬ p <:+: postY (dropTrail emt (maskBlocks scanned A2)) := by
      intro hocc
      unfold postY at hocc
      by_cases hR : (dropTrail emt (maskBlocks scanned A2)).isEmpty
      · rw [if_pos hR] at hocc
        exact hp_ne (List.eq_nil_of_infix_nil hocc)
      · rw [if_neg hR] at hocc
        rcases List.infix_cons_iff.mp hocc with hpre | hocc2
        · obtain ⟨c1, w1', hw1eq⟩ := List.exists_cons_of_ne_nil hw1ne
          have hstart : ∃ z, p = c1 :: z := by
            rw [← hjp, hWhead]
            cases Wtail with
            | nil => exact ⟨w1', by simp [joinTok, hw1eq]⟩
            | cons x t =>
              refine ⟨w1' ++ ' ' :: joinTok (x :: t), ?_⟩
              rw [joinTok_cons₂, hw1eq]
              rfl
          obtain ⟨z, hz⟩ := hstart
          rw [hz, List.cons_prefix_cons] at hpre
          have hsp : ' ' ∈ w1 := by
            rw [hw1eq, ← hpre.1]
            simp
          exact (hWp_wf w1 hw1mem).2 hsp
        · rw [← hjp] at hocc2
          have hword := word_occ_of_char_occ
            (dropTrail emt (maskBlocks scanned A2)) (wordsOf p) hWp_wf
            (fun w hw => sp_notin_of_wf
              (mask_sp (by simp) hA2 w (hRmem w hw)))
            (fun w hw => mask_H (by simp) hA2 hwpv w (hRmem w hw))
            hWp_ne hocc2
          rw [hWhead] at hword
          exact head_not_in_mask (by simp) hA2 hw1v hfresh1
            (fun q hq hqp => hpA2 (hqp ▸ hq))
            (hRmem w1 (head_mem_of_occ hword))
    have hLsp : ∀ w ∈ (ts ++ maskBlocks scanned A1).dropWhile emt,
        ∀ c ∈ w, isSpc c = false :=
      fun w hw => mask_sp hts_sp hA1 w (hLmem w hw)
    have hLH : ∀ w ∈ (ts ++ maskBlocks scanned A1).dropWhile emt,
        ∀ v ∈ wordsOf p, v <:+: w → v = w :=
      fun w hw => mask_H htsv hA1 hwpv w (hLmem w hw)
    have hLhead : w1 ∉ (ts ++ maskBlocks scanned A1).dropWhile emt :=
      fun h => head_not_in_mask htsv hA1 hw1v hfresh1
        (fun q hq hqp => hpA1 (hqp ▸ hq)) (hLmem w1 h)
    have hnox : ¬ p <:+:
        (preX ((ts ++ maskBlocks scanned A1).dropWhile emt)
          ++ p.dropLast) := by
      rcases hsh with ⟨w, hW, hwne, hwsp, hwnocc⟩ |
        ⟨u1, u2, hW, hu2ne, hu2sp, hu2nocc⟩
      · have hw1w : w1 = w := by
          rw [hW] at hWhead
          exact (List.cons.injEq .. ▸ hWhead.symm).1
        have hdp : p.dropLast = w.dropLast := by
          rw [← hjp, hW]
          rfl
        intro hocc
        rw [hdp] at hocc
        have hjoin : preX ((ts ++ maskBlocks scanned A1).dropWhile emt)
            ++ w.dropLast
            = joinTok ((ts ++ maskBlocks scanned A1).dropWhile emt
                ++ [w.dropLast]) :=
          preX_join _ [w.dropLast] (by simp)
        rw [hjoin, ← hjp] at hocc
        have hword := word_occ_of_char_occ _ (wordsOf p) hWp_wf
          (fun x hx => by
            rcases List.mem_append.mp hx with hx1 | hx2
            · exact sp_notin_of_wf (hLsp x hx1)
            · simp at hx2
              rw [hx2]
              exact sp_notin_of_wf hwsp)
          (fun x hx v hv hocc' => by
            rcases List.mem_append.mp hx with hx1 | hx2
            · exact hLH x hx1 v hv hocc'
            · simp at hx2
              rw [hx2] at hocc'
              exact absurd hocc' (hwnocc v hv))
          hWp_ne hocc
        rw [hW] at hword
        have hmem := head_mem_of_occ hword
        rcases List.mem_append.mp hmem with hmL | hmw
        · exact hLhead (hw1w ▸ hmL)
        · simp at hmw
          apply hwnocc w (by rw [hW]; simp)
          rw [← hmw]
      · have hw1u : w1 = u1 := by
          rw [hW] at hWhead
          exact (List.cons.injEq .. ▸ hWhead.symm).1
        have hu2mem : u2 ∈ wordsOf p := by
          rw [hW]
          simp
        have hp_eq : p = u1 ++ ' ' :: u2 := by
          rw [← hjp, hW, joinTok_cons₂]
          rfl
        have hdp : p.dropLast = u1 ++ ' ' :: u2.dropLast := by
          rw [hp_eq, List.dropLast_append_cons]
          congr 1
          obtain ⟨c2, u2', rfl⟩ :=
            List.exists_cons_of_ne_nil (hWp_wf u2 hu2mem).1
          simp
        intro hocc
        rw [hdp] at hocc
        have hjoin : preX ((ts ++ maskBlocks scanned A1).dropWhile emt)
            ++ (u1 ++ ' ' :: u2.dropLast)
            = joinTok ((ts ++ maskBlocks scanned A1).dropWhile emt
                ++ [u1, u2.dropLast]) :=
          preX_join _ [u1, u2.dropLast] (by simp)
        rw [hjoin, ← hjp] at hocc
        have hword := word_occ_of_char_occ _ (wordsOf p) hWp_wf
          (fun x hx => by
            rcases List.mem_append.mp hx with hx1 | hx2
            · exact sp_notin_of_wf (hLsp x hx1)
            · rcases List.mem_cons.mp hx2 with h1 | hx3
              · rw [h1]
                exact (hWp_wf u1 (by rw [hW]; simp)).2
              · simp at hx3
                rw [hx3]
                exact sp_notin_of_wf hu2sp)
          (fun x hx v hv hocc' => by
            rcases List.mem_append.mp hx with hx1 | hx2
            · exact hLH x hx1 v hv hocc'
            · rcases List.mem_cons.mp hx2 with h1 | hx3
              · rw [h1] at hocc' ⊢
                exact vocab_words_no_collide v (hwpv v hv) u1
                  (hwpv u1 (by rw [hW]; simp)) hocc'
              · simp at hx3
                rw [hx3] at hocc'
                exact absurd hocc' (hu2nocc v hv))
          hWp_ne hocc
        rw [hW] at hword
        rcases pair_split hword with hmL | hocc2
        · exact hLhead (hw1u ▸ hmL)
        · have heq := hocc2.eq_of_length (by simp)
          have : u2 = u2.dropLast :=
            (List.cons.injEq .. ▸ (List.cons.injEq .. ▸ heq).2).1
          apply hu2nocc u2 hu2mem
          rw [← this]
    rw [hdecomp, joinTok_block hWp_ne, hjp]
    rw [replace_once hp_ne hnox hnoy]
    rw [joinTok_hole]
    rw [pyStrip_joinTok (by
      intro w hw
      rcases List.mem_append.mp hw with hw1' | hw2'
      · rcases List.mem_append.mp hw1' with hwa | hwb
        · exact hLsp w hwa
        · simp at hwb
          rw [hwb]
          intro c hc
          simp at hc
      · exact mask_sp (by simp) hA2 w (hRmem w hw2'))]
    rw [hmask']
    congr 1
    congr 1
    calc trimEnds ((ts ++ maskBlocks scanned A1).dropWhile emt ++ [[]]
            ++ dropTrail emt (maskBlocks scanned A2))
        = trimEnds ((ts ++ maskBlocks scanned A1)
            ++ ([[]] ++ dropTrail emt (maskBlocks scanned A2))) := by
          rw [List.append_assoc]
          exact trimEnds_front _ _
      _ = trimEnds (((ts ++ maskBlocks scanned A1) ++ [[]])
            ++ dropTrail emt (maskBlocks scanned A2)) := by
          simp only [List.append_assoc]
      _ = trimEnds (((ts ++ maskBlocks scanned A1) ++ [[]])
            ++ maskBlocks scanned A2) := trimEnds_back _ _

/-- A description starting with `"Any "` never passes the
`startswith('All post activity to')` test. -/
theorem allHead_not_pre_any (X : Str) : ¬ allHead <+: (anySep ++ X) := by
  intro hpre
  have h4 := hpre.take 4
  rw [List.take_left' (by decide)] at h4
  have he : allHead.take 4 = str "All " := by decide
  rw [he] at h4
  exact absurd h4 (by decide)

/-- A separator that occurs somewhere yields at least two split pieces. -/
theorem pySplit_len_two {p : Str} (hp : p ≠ []) :
    ∀ {s : Str}, p <:+: s → ∃ a b t, pySplit p s = a :: b :: t := by
  intro s
  induction s with
  | nil =>
    intro h
    exact absurd (List.eq_nil_of_infix_nil h) hp
  | cons c rest ih =>
    intro h
    rw [pySplit_cons]
    by_cases hpre : p ≠ [] ∧ p <+: (c :: rest)
    · rw [if_pos hpre]
      obtain ⟨b, t, hbt⟩ :=
        List.exists_cons_of_ne_nil (pySplit_ne_nil p (rest.drop (p.length - 1)))
      exact ⟨[], b, t, by rw [hbt]⟩
    · rw [if_neg hpre]
      have hrest : p <:+: rest := by
        rcases List.infix_cons_iff.mp h with hc | hc
        · exact absurd ⟨hp, hc⟩ hpre
        · exact hc
      obtain ⟨a, b, t, habt⟩ := ih hrest
      rw [habt]
      exact ⟨c :: a, b, t, rfl⟩

/-! ### Claims -/

/-- Claim C2, counterexample: on a normalized description that starts with
the literal `"All post activity to "` but whose remainder contains the
phrase again, the parser's channel is the empty segment between the first
and second occurrence, not the remainder after the first occurrence. -/
theorem claim_C2_counterexample :
    process_description (str "All post activity to " ++ str "All post activity to x")
      = some ([str "all"], activity_types, [])
    ∧ ([] : Str) ≠ str "All post activity to x" := by
  constructor
  · decide
  · decide

/-- Claim C2, amended: for every normalized description of the form
`"All post activity to " ++ X` in which the phrase
`"All post activity to "` does not occur again inside `X`, the parser
returns `tags = ["all"]`, the full vocabulary, and `channel = X`. -/
theorem claim_C2_amended (X : Str) (h : ¬ allSep <:+: X) :
    process_description (allSep ++ X) = some ([str "all"], activity_types, X) := by
  unfold process_description
  have hpre : allHead <+: allSep ++ X := by
    refine ⟨' ' :: X, ?_⟩
    rw [show allSep = allHead ++ [' '] from by decide]
    simp
  rw [if_pos hpre]
  have hsplit : pySplit allSep (allSep ++ X) = [[], X] := by
    have := pySplit_sep_once (p := allSep) (by decide) (x := []) (y := X)
      (by decide) h
    simpa using this
  rw [hsplit]
  rfl

/-- Claim C2, witness: scenario 1 of the spec. -/
theorem claim_C2_witness :
    process_description (str "All post activity to " ++ str "Private Channel")
      = some ([str "all"], activity_types, str "Private Channel") :=
  claim_C2_amended (str "Private Channel") (by decide)

/-- Claim C5: contrary to the spec, a description whose final split
yields an empty channel is *not* rejected: the parser completes and
returns a record whose `channel` is the empty string.  The failing
input is reachable from the raw description `"Any questions to ,"`,
whose normalization is `"Any questions to "`. -/
theorem claim_C5_code_bug :
    normalizeDesc (str "Any questions to ,") = str "Any questions to "
    ∧ process_description (str "Any questions to ")
        = some ([str "all"], [str "questions"], []) := by
  constructor
  · decide
  · decide

/-- Claim C6, counterexample: a normalized description that starts with
neither `"All post activity to "` nor `"Any "` can still produce a
record, because the unguarded split finds `"Any "` in the middle. -/
theorem claim_C6_counterexample :
    ¬ str "All post activity to " <+: str "Some Any x to #y"
    ∧ ¬ str "Any " <+: str "Some Any x to #y"
    ∧ process_description (str "Some Any x to #y")
        = some ([str "x"], [], str "#y") := by
  refine ⟨by decide, by decide, by decide⟩

/-- Claim C6, amended: for every normalized description that does not
start with `"All post activity to"` (the code checks this prefix without
the trailing space) and does not contain `"Any "` anywhere, parsing
fails (the unguarded split raises an index error) and no record is
produced. -/
theorem claim_C6_amended (d : Str) (h1 : ¬ allHead <+: d)
    (h2 : ¬ anySep <:+: d) : process_description d = none := by
  unfold process_description
  rw [if_neg h1, pySplit_no_occ h2]
  rfl

/-- Claim C6, witness: scenario 6 of the spec. -/
theorem claim_C6_witness :
    process_description (str "Some unexpected phrasing to #x") = none :=
  claim_C6_amended (str "Some unexpected phrasing to #x") (by decide) (by decide)

/-- Claim C8, counterexample: the normalizer is not idempotent.
Removing the comma of `", a"` exposes a leading space that only a second
normalization pass strips. -/
theorem claim_C8_counterexample :
    normalizeDesc (normalizeDesc (str ", a")) ≠ normalizeDesc (str ", a") := by
  decide

/-- Claim C8, amended: the normalizer is idempotent on strings free of
the characters whose removal can expose or create new matches: inputs
containing no `<`, no comma, no line break, and no occurrence of the
synonym marker. -/
theorem claim_C8_amended (s : Str)
    (h1 : '<' ∉ s) (h2 : ',' ∉ s) (h3 : '\n' ∉ s) (h4 : '\r' ∉ s)
    (h5 : ¬ synMark <:+: s) :
    normalizeDesc (normalizeDesc s) = normalizeDesc s := by
  have e := normalizeDesc_eq_pyStrip h1 h2 h3 h4 h5
  rw [e]
  have e2 := normalizeDesc_eq_pyStrip
    (s := pyStrip s)
    (fun hm => h1 (mem_of_mem_pyStrip hm))
    (fun hm => h2 (mem_of_mem_pyStrip hm))
    (fun hm => h3 (mem_of_mem_pyStrip hm))
    (fun hm => h4 (mem_of_mem_pyStrip hm))
    (fun hocc => h5 (hocc.trans (pyStrip_infix_self s)))
  rw [e2, pyStrip_idem]

/-- Claim C8, witness: a concrete clean string. -/
theorem claim_C8_witness :
    normalizeDesc (normalizeDesc (str "  Any aws posts to #x "))
      = normalizeDesc (str "  Any aws posts to #x ") :=
  claim_C8_amended (str "  Any aws posts to #x ")
    (by decide) (by decide) (by decide) (by decide) (by decide)

/-- Claim C10: every record the parser returns carries an `activities`
list that is a duplicate-free subsequence of the vocabulary in
vocabulary order, and the all-activity branch returns exactly the full
vocabulary. -/
theorem claim_C10 (d : Str) (t a : List Str) (c : Str)
    (h : process_description d = some (t, a, c)) :
    a.Sublist activity_types ∧ a.Nodup ∧ (allHead <+: d → a = activity_types) := by
  have hvocab : activity_types.Nodup := by decide
  unfold process_description at h
  split at h
  case isTrue h1 =>
    simp only [Option.map_eq_some'] at h
    obtain ⟨ch, -, heq⟩ := h
    have ha : a = activity_types := (congrArg (fun r => r.2.1) heq).symm
    exact ⟨ha ▸ List.Sublist.refl _, ha ▸ hvocab, fun _ => ha⟩
  case isFalse h1 =>
    split at h
    · exact absurd h (by simp)
    case h_2 rest h2 =>
      split at h
      · exact absurd h (by simp)
      case h_2 channel h3 =>
        split at h
        · injection h with h
          have ha : a = activity_types := (congrArg (fun r => r.2.1) h).symm
          exact ⟨ha ▸ List.Sublist.refl _, ha ▸ hvocab, fun hh => absurd hh h1⟩
        · injection h with h
          have ha : a
              = (activity_types.foldl scanStep
                  ([], (pySplit toSep rest).getD 0 [])).1 :=
            (congrArg (fun r => r.2.1) h).symm
          obtain ⟨s, hs, hsub⟩ :=
            scan_acc_extends activity_types [] ((pySplit toSep rest).getD 0 [])
          rw [hs, List.nil_append] at ha
          exact ⟨ha ▸ hsub, ha ▸ hsub.nodup hvocab,
            fun hh => absurd hh h1⟩

/-- Claim C10, witness. -/
theorem claim_C10_witness :
    ([str "questions", str "answers"] : List Str).Sublist activity_types
    ∧ ([str "questions", str "answers"] : List Str).Nodup
    ∧ (allHead <+: str "Any questions answers to #help-desk"
        → [str "questions", str "answers"] = activity_types) :=
  claim_C10 (str "Any questions answers to #help-desk")
    [str "all"] [str "questions", str "answers"] (str "#help-desk") (by decide)

/-- Claim C1, counterexample: in `"Any aws edited questions to #c"` the
vocabulary phrase `"questions"` appears in the input (inside
`"edited questions"`), yet the returned `activities` does not contain
it — the scan removes `"edited questions"` before testing
`"questions"`. -/
theorem claim_C1_counterexample :
    process_description (str "Any aws edited questions to #c")
      = some ([str "aws"], [str "edited questions"], str "#c")
    ∧ str "questions" ∈ activity_types
    ∧ str "questions" <:+: str "Any aws edited questions to #c"
    ∧ str "questions" ∉ [str "edited questions"] := by
  refine ⟨by decide, by decide, by decide, by decide⟩

/-- Claim C3, counterexample: the tag token `"Any"` makes the unguarded
`split('Any ')[1]` return the empty segment between the two occurrences
of `"Any "`, after which the channel split raises; the parser produces
no record although the input has the claimed form with a nonempty tag
list free of activity-phrase collisions. -/
theorem claim_C3_counterexample :
    process_description (str "Any " ++ str "Any" ++ str " posts to " ++ str "#c")
      = none := by
  decide

/-- Claim C4, counterexample: a parse that completes with an empty
`activities` list: no vocabulary phrase occurs in the body. -/
theorem claim_C4_counterexample :
    process_description (str "Any foo to #bar")
      = some ([str "foo"], [], str "#bar") := by
  decide

/-- Claim C7, counterexample: when `" to "` occurs twice, the channel is
the segment *between* the first and second occurrence (`"#a"`), not
everything after the first occurrence (`"#a to b"`). -/
theorem claim_C7_counterexample :
    process_description (str "Any questions to #a to b")
      = some ([str "all"], [str "questions"], str "#a")
    ∧ str "#a" ≠ str "#a to b" := by
  refine ⟨by decide, by decide⟩

/-- Claim C9, counterexample: with no tag tokens but a channel that
contains `"posts to"`, the parser takes the posts-to branch and returns
tags read from the text before `" posts to "` instead of `["all"]`. -/
theorem claim_C9_counterexample :
    process_description (str "Any questions to #x posts to y")
      = some ([str "questions", str "to", str "#x"], activity_types, str "#x posts")
    ∧ ([str "questions", str "to", str "#x"] : List Str) ≠ [str "all"] := by
  refine ⟨by decide, by decide⟩

/-- Claim C4, amended: when a parse completes, `activities` can only be
empty if the parse went through the explicit-activities branch and no
vocabulary phrase occurs in the extracted body (the text between
`"Any "` and the first `" to "`); the other branches always return the
full vocabulary. -/
theorem claim_C4_amended (d : Str) (t a : List Str) (c : Str)
    (h : process_description d = some (t, a, c)) (ha : a = []) :
    ¬ allHead <+: d
    ∧ ∃ rest, (pySplit anySep d)[1]? = some rest
        ∧ ¬ postsTo <:+: rest
        ∧ ∀ p ∈ activity_types, ¬ p <:+: (pySplit toSep rest).getD 0 [] := by
  subst ha
  unfold process_description at h
  split at h
  case isTrue h1 =>
    exfalso
    simp only [Option.map_eq_some'] at h
    obtain ⟨ch, -, heq⟩ := h
    have hveq : activity_types = [] := congrArg (fun r => r.2.1) heq
    exact absurd hveq (by decide)
  case isFalse h1 =>
    split at h
    · exact absurd h (by simp)
    case h_2 rest h2 =>
      split at h
      · exact absurd h (by simp)
      case h_2 channel h3 =>
        split at h
        case isTrue h4 =>
          exfalso
          injection h with h
          have hveq : activity_types = [] := congrArg (fun r => r.2.1) h
          exact absurd hveq (by decide)
        case isFalse h4 =>
          injection h with h
          have hacc : (activity_types.foldl scanStep
              ([], (pySplit toSep rest).getD 0 [])).1 = [] :=
            congrArg (fun r => r.2.1) h
          obtain ⟨-, hnone⟩ := scan_acc_empty activity_types _ hacc
          exact ⟨h1, rest, h2, h4, hnone⟩

/-- Claim C4, witness. -/
theorem claim_C4_witness :
    ¬ allHead <+: str "Any foo to #bar"
    ∧ ∃ rest, (pySplit anySep (str "Any foo to #bar"))[1]? = some rest
        ∧ ¬ postsTo <:+: rest
        ∧ ∀ p ∈ activity_types, ¬ p <:+: (pySplit toSep rest).getD 0 [] :=
  claim_C4_amended (str "Any foo to #bar") [str "foo"] [] (str "#bar")
    (by decide) rfl

/-- Claim C7, amended: in the explicit-activities branch the *body*
(scanned for activities and tags) is everything before the first
`" to "`, and the *channel* is the segment after the first `" to "` up
to the next occurrence of `" to "` (Python's `split(' to ')[1]`), not
everything after the first occurrence. -/
theorem claim_C7_amended (B Y : Str)
    (hAny : ¬ anySep <:+: (B ++ toSep ++ Y))
    (hB : ¬ toSep <:+: (B ++ toSep.dropLast))
    (hPosts : ¬ postsTo <:+: (B ++ toSep ++ Y)) :
    process_description (anySep ++ (B ++ toSep ++ Y))
      = some
          ((if (activity_types.foldl scanStep ([], B)).2.isEmpty
            then [str "all"]
            else pySplit [' '] (activity_types.foldl scanStep ([], B)).2),
           (activity_types.foldl scanStep ([], B)).1,
           (pySplit toSep Y).getD 0 []) := by
  unfold process_description
  rw [if_neg (allHead_not_pre_any _)]
  have hrest : pySplit anySep (anySep ++ (B ++ toSep ++ Y))
      = [[], B ++ toSep ++ Y] := by
    have h0 : anySep ++ (B ++ toSep ++ Y)
        = [] ++ anySep ++ (B ++ toSep ++ Y) := by simp
    rw [h0]
    exact pySplit_sep_once (by decide) (by decide) hAny
  rw [hrest]
  have h1 : ([[], B ++ toSep ++ Y] : List Str)[1]? = some (B ++ toSep ++ Y) :=
    rfl
  rw [h1]
  dsimp only
  have htos : pySplit toSep (B ++ toSep ++ Y) = B :: pySplit toSep Y :=
    pySplit_append (by decide) Y hB
  obtain ⟨Y0, Yt, hY⟩ :=
    List.exists_cons_of_ne_nil (pySplit_ne_nil toSep Y)
  rw [htos, hY]
  have h2 : (B :: Y0 :: Yt : List Str)[1]? = some Y0 := by simp
  rw [h2]
  dsimp only
  rw [if_neg hPosts]
  rfl

/-- Claim C7, witness: a channel region containing a second `" to "`. -/
theorem claim_C7_witness :
    process_description (str "Any " ++ (str "questions" ++ str " to "
        ++ str "#a to b"))
      = some ([str "all"], [str "questions"], str "#a") :=
  (claim_C7_amended (str "questions") (str "#a to b")
    (by decide) (by decide) (by decide)).trans (by decide)

/-- Claim C3, amended: for a normalized description
`"Any " ++ <tags> ++ " posts to " ++ <channel>` whose space-joined tag
tokens are space-free, provided the markers are not recreated inside the
text — `"Any "` does not occur after the prefix and `" posts to "`
occurs at the template position first — the parser returns the full
vocabulary and exactly the tag tokens.  (The unamended claim fails for
tag lists such as `["Any"]`, which crash the unguarded splits.) -/
theorem claim_C3_amended (ts : List Str) (C : Str)
    (hne : ts ≠ [])
    (hwf : ∀ t ∈ ts, ' ' ∉ t)
    (hAny : ¬ anySep <:+: (joinTok ts ++ postsToSep ++ C))
    (hP : ¬ postsToSep <:+: (joinTok ts ++ postsToSep.dropLast)) :
    ∃ ch, process_description (anySep ++ (joinTok ts ++ postsToSep ++ C))
      = some (ts, activity_types, ch) := by
  unfold process_description
  rw [if_neg (allHead_not_pre_any _)]
  have hrest : pySplit anySep (anySep ++ (joinTok ts ++ postsToSep ++ C))
      = [[], joinTok ts ++ postsToSep ++ C] := by
    have h0 : anySep ++ (joinTok ts ++ postsToSep ++ C)
        = [] ++ anySep ++ (joinTok ts ++ postsToSep ++ C) := by simp
    rw [h0]
    exact pySplit_sep_once (by decide) (by decide) hAny
  rw [hrest]
  have h1 : ([[], joinTok ts ++ postsToSep ++ C] : List Str)[1]?
      = some (joinTok ts ++ postsToSep ++ C) := rfl
  rw [h1]
  dsimp only
  have htoin : toSep <:+: (joinTok ts ++ postsToSep ++ C) := by
    have h2 : toSep <:+: postsToSep := by decide
    exact h2.trans (List.infix_append _ _ _)
  obtain ⟨a, b, tl, habt⟩ := pySplit_len_two (by decide) htoin
  rw [habt]
  have h2 : (a :: b :: tl : List Str)[1]? = some b := by simp
  rw [h2]
  dsimp only
  have hpostsin : postsTo <:+: (joinTok ts ++ postsToSep ++ C) := by
    have h3 : postsTo <:+: postsToSep := by decide
    exact h3.trans (List.infix_append _ _ _)
  rw [if_pos hpostsin]
  have hsplitp : pySplit postsToSep (joinTok ts ++ postsToSep ++ C)
      = joinTok ts :: pySplit postsToSep C :=
    pySplit_append (by decide) C hP
  rw [hsplitp]
  refine ⟨b, ?_⟩
  have hgd : (joinTok ts :: pySplit postsToSep C).getD 0 []
      = joinTok ts := rfl
  rw [hgd, splitSp_joinTok hne hwf]

/-- Claim C3, witness: scenario 5 of the spec. -/
theorem claim_C3_witness :
    ∃ ch, process_description (str "Any " ++ (joinTok [str "machine-learning"]
        ++ str " posts to " ++ str "#mits-demo"))
      = some ([str "machine-learning"], activity_types, ch) :=
  claim_C3_amended [str "machine-learning"] (str "#mits-demo")
    (by decide) (by decide) (by decide) (by decide)

/-! ### Running the scan over the whole vocabulary -/

theorem dropWhile_id_of_all {p : α → Bool} {l : List α}
    (h : ∀ w ∈ l, p w = false) : l.dropWhile p = l := by
  cases l with
  | nil => rfl
  | cons x t =>
    rw [List.dropWhile_cons_of_neg (by simp [h x (List.mem_cons_self x t)])]

theorem dropTrail_id_of_all {p : α → Bool} {l : List α}
    (h : ∀ w ∈ l, p w = false) : dropTrail p l = l := by
  unfold dropTrail
  rw [dropWhile_id_of_all (fun w hw => h w (List.mem_reverse.mp hw)),
    List.reverse_reverse]

theorem trimEnds_id {M : List Str} (hM : ∀ w ∈ M, w ≠ []) :
    trimEnds M = M := by
  unfold trimEnds
  rw [dropWhile_id_of_all (fun w hw => emt_false (hM w hw)),
    dropTrail_id_of_all (fun w hw => emt_false (hM w hw))]

theorem mem_maskBlocks_unscanned {w : Str} {A : List Str}
    (hA : ∀ q ∈ A, q ∈ activity_types)
    (h : w ∈ maskBlocks [] A) : w ∈ vocabWords := by
  obtain ⟨q, hq, hw⟩ := mem_maskBlocks h
  unfold blockAt at hw
  rw [if_neg (List.not_mem_nil q)] at hw
  exact mem_vocabWords (hA q hq) hw

theorem maskBlocks_done {S : List Str} :
    ∀ {A : List Str}, (∀ q ∈ A, q ∈ S) →
      maskBlocks S A = List.replicate A.length [] := by
  intro A
  induction A with
  | nil => intro _; rfl
  | cons q A ih =>
    intro h
    rw [maskBlocks_cons]
    have hb : blockAt S q = [[]] := by
      unfold blockAt
      rw [if_pos (h q (List.mem_cons_self q A))]
    rw [hb, ih (fun r hr => h r (List.mem_cons_of_mem q hr))]
    rfl

theorem trimEnds_append_replicate (ts : List Str) (n : Nat)
    (hts : ∀ t ∈ ts, t ≠ []) :
    trimEnds (ts ++ List.replicate n []) = ts := by
  have hrep : ∀ w ∈ List.replicate n ([] : Str), emt w = true := by
    intro w hw
    rw [List.eq_of_mem_replicate hw]
    rfl
  cases ts with
  | nil =>
    unfold trimEnds
    rw [List.nil_append]
    have h1 : (List.replicate n ([] : Str)).dropWhile emt = [] := by
      have h2 := dropWhile_absorb hrep ([] : List Str)
      rw [List.append_nil] at h2
      rw [h2]
      rfl
    rw [h1]
    rfl
  | cons t0 ts' =>
    unfold trimEnds
    have h0 : emt t0 = false := emt_false (hts t0 (List.mem_cons_self t0 ts'))
    rw [List.cons_append, List.dropWhile_cons_of_neg (by simp [h0]),
      ← List.cons_append]
    have hY : dropTrail emt (List.replicate n ([] : Str)) = [] := by
      unfold dropTrail
      rw [List.dropWhile_eq_nil_iff.mpr
        (fun x hx => hrep x (List.mem_reverse.mp hx))]
      rfl
    have h3 := dropTrail_append_stable emt (t0 :: ts')
      (List.replicate n ([] : Str))
    rw [hY, List.append_nil] at h3
    rw [← h3]
    exact dropTrail_id_of_all (fun w hw => emt_false (hts w hw))

theorem scan_chain (ts A : List Str)
    (hts : ∀ t ∈ ts, t ≠ [] ∧ ∀ c ∈ t, isSpc c = false)
    (htsv : ∀ t ∈ ts, ∀ v ∈ vocabWords, ¬ v <:+: t)
    (hA : ∀ q ∈ A, q ∈ activity_types) (hnd : A.Nodup) :
    activity_types.foldl scanStep
        ([], joinTok (trimEnds (ts ++ maskBlocks [] A)))
      = (activity_types.filter (fun q => decide (q ∈ A)),
         joinTok (trimEnds (ts ++ maskBlocks activity_types A))) := by
  have hmm : maskBlocks [str "comments", str "answers", str "questions",
        str "accepted answers", str "updated answers",
        str "edited questions"] A
      = maskBlocks [str "edited questions", str "updated answers",
        str "accepted answers", str "questions", str "answers",
        str "comments"] A :=
    maskBlocks_congr (fun q _ => by
      simp only [List.mem_cons, List.not_mem_nil, or_false]
      tauto)
  simp only [activity_types, List.foldl_cons, List.foldl_nil]
  rw [scan_step_main ts A [] (str "edited questions") [] hts htsv hA hnd
    (by decide) (by decide) (by decide)
    (Or.inr ⟨str "edited", str "questions", by decide, by decide, by decide,
      by decide⟩)
    (by decide)]
  rw [scan_step_main ts A [str "edited questions"]
    (str "updated answers") _ hts htsv hA hnd
    (by decide) (by decide) (by decide)
    (Or.inr ⟨str "updated", str "answers", by decide, by decide, by decide,
      by decide⟩)
    (by decide)]
  rw [scan_step_main ts A [str "updated answers", str "edited questions"]
    (str "accepted answers") _ hts htsv hA hnd
    (by decide) (by decide) (by decide)
    (Or.inr ⟨str "accepted", str "answers", by decide, by decide, by decide,
      by decide⟩)
    (by decide)]
  rw [scan_step_main ts A [str "accepted answers", str "updated answers",
      str "edited questions"]
    (str "questions") _ hts htsv hA hnd
    (by decide) (by decide) (by decide)
    (Or.inl ⟨str "questions", by decide, by decide, by decide, by decide⟩)
    (by decide)]
  rw [scan_step_main ts A [str "questions", str "accepted answers",
      str "updated answers", str "edited questions"]
    (str "answers") _ hts htsv hA hnd
    (by decide) (by decide) (by decide)
    (Or.inl ⟨str "answers", by decide, by decide, by decide, by decide⟩)
    (by decide)]
  rw [scan_step_main ts A [str "answers", str "questions",
      str "accepted answers", str "updated answers", str "edited questions"]
    (str "comments") _ hts htsv hA hnd
    (by decide) (by decide) (by decide)
    (Or.inl ⟨str "comments", by decide, by decide, by decide, by decide⟩)
    (by decide)]
  rw [hmm]
  congr 1
  by_cases h1 : str "edited questions" ∈ A <;>
    by_cases h2 : str "updated answers" ∈ A <;>
    by_cases h3 : str "accepted answers" ∈ A <;>
    by_cases h4 : str "questions" ∈ A <;>
    by_cases h5 : str "answers" ∈ A <;>
    by_cases h6 : str "comments" ∈ A <;>
    simp [h1, h2, h3, h4, h5, h6]

/-- Claim C1 (amended): for a normalized description
`"Any " ++ <tags> ++ " " ++ <phrases> ++ " to " ++ <channel>` in which
the tag tokens are nonempty, space-free, and contain no vocabulary word
as a substring, the phrase list is a duplicate-free selection from the
vocabulary, and the markers `"Any "`, `"posts to"`, `" to "` do not
reappear elsewhere in the text, the parser returns exactly the selected
phrases, in vocabulary order, as `activities` and exactly the tag
tokens as `tags`.  (The unamended claim fails when one vocabulary
phrase occurs as a substring of another that is present, e.g.
`"questions"` inside `"edited questions"`: the contained phrase appears
in the input but not in the output.) -/
theorem claim_C1_amended (ts A : List Str) (C : Str)
    (hts : ∀ t ∈ ts, t ≠ [] ∧ ∀ c ∈ t, isSpc c = false)
    (htsv : ∀ t ∈ ts, ∀ v ∈ vocabWords, ¬ v <:+: t)
    (hne : ts ≠ [])
    (hA : ∀ q ∈ A, q ∈ activity_types) (hnd : A.Nodup)
    (hAny : ¬ anySep <:+: (joinTok (ts ++ maskBlocks [] A) ++ toSep ++ C))
    (hPosts : ¬ postsTo <:+: (joinTok (ts ++ maskBlocks [] A) ++ toSep ++ C))
    (hB : ¬ toSep <:+: (joinTok (ts ++ maskBlocks [] A) ++ toSep.dropLast))
    (hC : ¬ toSep <:+: C) :
    process_description
        (anySep ++ (joinTok (ts ++ maskBlocks [] A) ++ toSep ++ C))
      = some (ts, activity_types.filter (fun q => decide (q ∈ A)), C) := by
  unfold process_description
  rw [if_neg (allHead_not_pre_any _)]
  have hrest : pySplit anySep (anySep ++ (joinTok (ts ++ maskBlocks [] A)
        ++ toSep ++ C))
      = [[], joinTok (ts ++ maskBlocks [] A) ++ toSep ++ C] := by
    have h0 : anySep ++ (joinTok (ts ++ maskBlocks [] A) ++ toSep ++ C)
        = [] ++ anySep ++ (joinTok (ts ++ maskBlocks [] A) ++ toSep ++ C) := by
      simp
    rw [h0]
    exact pySplit_sep_once (by decide) (by decide) hAny
  rw [hrest]
  have h1 : ([[], joinTok (ts ++ maskBlocks [] A) ++ toSep ++ C] :
      List Str)[1]? = some (joinTok (ts ++ maskBlocks [] A) ++ toSep ++ C) :=
    rfl
  rw [h1]
  dsimp only
  have htos : pySplit toSep (joinTok (ts ++ maskBlocks [] A) ++ toSep ++ C)
      = joinTok (ts ++ maskBlocks [] A) :: pySplit toSep C :=
    pySplit_append (by decide) C hB
  rw [htos, pySplit_no_occ hC]
  have h2 : (joinTok (ts ++ maskBlocks [] A) :: [C] : List Str)[1]?
      = some C := rfl
  rw [h2]
  dsimp only
  rw [if_neg hPosts]
  have hgd : (joinTok (ts ++ maskBlocks [] A) :: [C] : List Str).getD 0 []
      = joinTok (ts ++ maskBlocks [] A) := rfl
  rw [hgd]
  have hall : ∀ w ∈ ts ++ maskBlocks [] A, w ≠ [] := by
    intro w hw
    rcases List.mem_append.mp hw with h | h
    · exact (hts w h).1
    · exact (vocab_words_wf w (mem_maskBlocks_unscanned hA h)).1
  have hB0 : joinTok (ts ++ maskBlocks [] A)
      = joinTok (trimEnds (ts ++ maskBlocks [] A)) := by
    rw [trimEnds_id hall]
  rw [hB0, scan_chain ts A hts htsv hA hnd]
  rw [maskBlocks_done hA,
    trimEnds_append_replicate ts A.length (fun t ht => (hts t ht).1)]
  dsimp only
  have hjne : joinTok ts ≠ [] := by
    obtain ⟨t0, ts', rfl⟩ := List.exists_cons_of_ne_nil hne
    exact joinTok_ne_nil (hts t0 (List.mem_cons_self t0 ts')).1 ts'
  rw [if_neg (show ¬ (joinTok ts).isEmpty = true from
    fun hc => hjne (emt_iff.mp hc))]
  rw [splitSp_joinTok hne (fun t ht => sp_notin_of_wf (hts t ht).2)]

/-- Claim C1, witness: scenario 3 of the spec. -/
theorem claim_C1_witness :
    process_description (str
        "Any admiral python aws amazon-web-services questions answers to #admiral")
      = some ([str "admiral", str "python", str "aws",
               str "amazon-web-services"],
              [str "questions", str "answers"], str "#admiral") := by
  have h := claim_C1_amended
    [str "admiral", str "python", str "aws", str "amazon-web-services"]
    [str "questions", str "answers"] (str "#admiral")
    (by decide) (by decide) (by decide) (by decide) (by decide)
    (by decide) (by decide) (by decide) (by decide)
  have heq : str
      "Any admiral python aws amazon-web-services questions answers to #admiral"
      = anySep ++ (joinTok ([str "admiral", str "python", str "aws",
          str "amazon-web-services"] ++ maskBlocks []
          [str "questions", str "answers"]) ++ toSep ++ str "#admiral") := by
    decide
  rw [heq, h]
  decide

/-- Claim C9 (amended): for a normalized description
`"Any " ++ <phrases> ++ " to " ++ <channel>` whose body consists of a
duplicate-free selection of vocabulary phrases and no tag tokens, and
in which the markers `"Any "`, `"posts to"`, `" to "` do not reappear
elsewhere in the text, the parser returns `tags = ["all"]` (and the
selected phrases, in vocabulary order, as `activities`).  (The
unamended claim fails when the channel itself contains `"posts to"`:
the parser then takes the posts-to branch and reads tags out of the
text before `" posts to "`.) -/
theorem claim_C9_amended (A : List Str) (C : Str)
    (hA : ∀ q ∈ A, q ∈ activity_types) (hnd : A.Nodup)
    (hAny : ¬ anySep <:+: (joinTok (maskBlocks [] A) ++ toSep ++ C))
    (hPosts : ¬ postsTo <:+: (joinTok (maskBlocks [] A) ++ toSep ++ C))
    (hB : ¬ toSep <:+: (joinTok (maskBlocks [] A) ++ toSep.dropLast))
    (hC : ¬ toSep <:+: C) :
    process_description (anySep ++ (joinTok (maskBlocks [] A) ++ toSep ++ C))
      = some ([str "all"],
              activity_types.filter (fun q => decide (q ∈ A)), C) := by
  unfold process_description
  rw [if_neg (allHead_not_pre_any _)]
  have hrest : pySplit anySep (anySep ++ (joinTok (maskBlocks [] A)
        ++ toSep ++ C))
      = [[], joinTok (maskBlocks [] A) ++ toSep ++ C] := by
    have h0 : anySep ++ (joinTok (maskBlocks [] A) ++ toSep ++ C)
        = [] ++ anySep ++ (joinTok (maskBlocks [] A) ++ toSep ++ C) := by
      simp
    rw [h0]
    exact pySplit_sep_once (by decide) (by decide) hAny
  rw [hrest]
  have h1 : ([[], joinTok (maskBlocks [] A) ++ toSep ++ C] :
      List Str)[1]? = some (joinTok (maskBlocks [] A) ++ toSep ++ C) :=
    rfl
  rw [h1]
  dsimp only
  have htos : pySplit toSep (joinTok (maskBlocks [] A) ++ toSep ++ C)
      = joinTok (maskBlocks [] A) :: pySplit toSep C :=
    pySplit_append (by decide) C hB
  rw [htos, pySplit_no_occ hC]
  have h2 : (joinTok (maskBlocks [] A) :: [C] : List Str)[1]?
      = some C := rfl
  rw [h2]
  dsimp only
  rw [if_neg hPosts]
  have hgd : (joinTok (maskBlocks [] A) :: [C] : List Str).getD 0 []
      = joinTok (maskBlocks [] A) := rfl
  rw [hgd]
  have hall : ∀ w ∈ ([] : List Str) ++ maskBlocks [] A, w ≠ [] := by
    intro w hw
    rw [List.nil_append] at hw
    exact (vocab_words_wf w (mem_maskBlocks_unscanned hA hw)).1
  have hB0 : joinTok (maskBlocks [] A)
      = joinTok (trimEnds ([] ++ maskBlocks [] A)) := by
    rw [trimEnds_id hall, List.nil_append]
  rw [hB0, scan_chain [] A (by simp) (by simp) hA hnd]
  rw [maskBlocks_done hA,
    trimEnds_append_replicate [] A.length (by simp)]
  rfl

/-- Claim C9, witness: scenario 4 of the spec. -/
theorem claim_C9_witness :
    process_description (str "Any questions answers to #help-desk")
      = some ([str "all"], [str "questions", str "answers"],
              str "#help-desk") := by
  have h := claim_C9_amended [str "questions", str "answers"]
    (str "#help-desk") (by decide) (by decide) (by decide) (by decide)
    (by decide) (by decide)
  have heq : str "Any questions answers to #help-desk"
      = anySep ++ (joinTok (maskBlocks [] [str "questions", str "answers"])
          ++ toSep ++ str "#help-desk") := by
    decide
  rw [heq, h]
  decide

end Soe
